import Mathlib

/-!
# The gocalc evaluator (package eval)

A shallow embedding of `eval/eval.go`: the syntax tree walked by the
evaluator, the evaluator state (current scope, error sink, standard output)
and every `eval*` method, followed by theorems about them.

Conventions of the embedding

* Go's `interface{}` values handled by `eval` are `Val`: the nil interface,
  an `int`, or a pointer to a syntax node.
* Go's `int` is taken to be 64 bits wide; `+`, `-`, `*` and `/` wrap
  (`wrapInt`), `/` and `%` truncate toward zero and fault on a zero divisor.
* Recursion is bounded by a depth budget (`fuel`): one unit is spent per
  nested call of `eval`.  `Res.timeout` means the budget was too small.
* A Go run-time panic (zero divisor, nil dereference, index out of range)
  is `Res.fault`, carrying the state at the moment of the panic.
-/

namespace Calc

/-! ## Data model -/

/-- Modelled from the spec: the syntax nodes of package `ast` (its type
declarations are not part of the source file), one constructor per case of
the type switch in `eval`, with the fields `eval` reads.  Source positions
are left out. -/
inductive Node where
  | number (val : Int)
  | identifier (lit : String)
  | compExpr (compLit : String) (a : Node) (b : Node)
  | defineExpr (name : String) (args : List String) (impl : List Node)
  | ifExpr (comp : Node) (thenN : Node) (elseN : Option Node)
  | mathExpr (opLit : String) (exprList : List Node)
  | printExpr (nodes : List Node)
  | setExpr (name : String) (value : Node)
  | userExpr (name : String) (nodes : List Node)
  | file (nodes : List Node)

/-- An `interface{}` value as `eval` receives and returns it. -/
inductive Val where
  | nil
  | int (v : Int)
  | node (n : Node)

/-- Modelled from the spec: the table of one frame of `ast.Scope`, the
bindings of the frame, newest first, at most one per name. -/
abbrev Table := List (String × Val)

/-- Modelled from the spec: `ast.Scope`, a frame with a link to its parent.
The chain is kept as the innermost table and the tables of the enclosing
frames, innermost first (`outer = []` for the root frame). -/
structure Scope where
  table : Table
  outer : List Table

/-- Modelled from the spec: the binding of a name in one frame of
`ast.Scope`, if any. -/
def Table.find (t : Table) (name : String) : Option Val :=
  match t with
  | [] => none
  | (k, v) :: rest => if k = name then some v else Table.find rest name

/-- Modelled from the spec: removal of the binding of a name from one frame
of `ast.Scope`. -/
def Table.erase (t : Table) (name : String) : Table :=
  match t with
  | [] => []
  | (k, v) :: rest =>
    if k = name then Table.erase rest name else (k, v) :: Table.erase rest name

/-- Modelled from the spec: insertion into one frame of `ast.Scope`; the new
binding replaces the one of the same name. -/
def Table.insert (t : Table) (name : String) (v : Val) : Table :=
  (name, v) :: t.erase name

/-- Modelled from the spec: lookup along the chain of frames of `ast.Scope`,
innermost first; nil when the chain is exhausted. -/
def lookupTables (ts : List Table) (name : String) : Val :=
  match ts with
  | [] => Val.nil
  | t :: rest =>
    match t.find name with
    | some v => v
    | none => lookupTables rest name

/-- Modelled from the spec: `ast.NewScope(parent)`, a fresh empty frame whose
parent is the given scope. -/
def NewScope (parent : Scope) : Scope :=
  { table := [], outer := parent.table :: parent.outer }

/-- Modelled from the spec: `(*ast.Scope).Insert`, which binds the name in
the innermost frame and overwrites the binding the frame had for it. -/
def Scope.Insert (s : Scope) (name : String) (v : Val) : Scope :=
  { s with table := s.table.insert name v }

/-- Modelled from the spec: `(*ast.Scope).Lookup`, which starts at the
innermost frame and walks outward until a binding is found; when the chain
is exhausted the result is nil. -/
def Scope.Lookup (s : Scope) (name : String) : Val :=
  lookupTables (s.table :: s.outer) name

/-- Modelled from the spec: the field `Parent` of `ast.Scope`, none for the
root frame. -/
def Scope.Parent (s : Scope) : Option Scope :=
  match s.outer with
  | [] => none
  | t :: rest => some { table := t, outer := rest }

/-- The evaluator state: the error sink `e.file` (of `token.File`, which is
not part of the source file, only the messages recorded by `AddError` are
kept, oldest first), the current scope `e.scope`, and the lines written to
standard output by `fmt.Println` (oldest first, each line the list of
printed values). -/
structure Evaluator where
  errors : List String
  scope : Scope
  out : List (List Val)

/-- Outcome of a method of the evaluator. -/
inductive Res (α : Type) where
  | ok (v : α) (e : Evaluator)
  | fault (e : Evaluator)
  | timeout

/-! ## Integers -/

/-- Width of Go's `int`. -/
def intBits : Nat := 64

/-- Two's-complement wrap-around of a mathematical integer into `int`. -/
def wrapInt (x : Int) : Int :=
  (x + 2 ^ (intBits - 1)) % 2 ^ intBits - 2 ^ (intBits - 1)

/-- The source's `BtoI`. -/
def BtoI (b : Bool) : Int :=
  if b then 1 else 0

/-- The source's `ItoB`. -/
def ItoB (i : Int) : Bool :=
  i != 0

/-- The closure passed to `evalMathFunc` for an operator (`none` for an
operator outside the switch of `evalMathExpr`).  The closure returns `none`
where Go panics (zero divisor). -/
def mathFn (opLit : String) : Option (Int → Int → Option Int) :=
  match opLit with
  | "+" => some (fun a b => some (wrapInt (a + b)))
  | "-" => some (fun a b => some (wrapInt (a - b)))
  | "*" => some (fun a b => some (wrapInt (a * b)))
  | "/" => some (fun a b => if b = 0 then none else some (wrapInt (Int.tdiv a b)))
  | "%" => some (fun a b => if b = 0 then none else some (Int.tmod a b))
  | "and" => some (fun a b => some (BtoI (ItoB a && ItoB b)))
  | "or" => some (fun a b => some (BtoI (ItoB a || ItoB b)))
  | _ => none

/-! ## The evaluator -/

/-- The source's `openScope`. -/
def openScope (e : Evaluator) : Evaluator :=
  { e with scope := NewScope e.scope }

/-- The source's `closeScope`: `e.scope = e.scope.Parent`.  On the root
frame Go leaves a nil scope; the embedding has no nil scope and reports a
fault (`evalUserExpr` never reaches that case, see `evalUserExpr_keeps`). -/
def closeScope (e : Evaluator) : Option Evaluator :=
  match e.scope.Parent with
  | some p => some { e with scope := p }
  | none => none

/-- The source's `evalCompExpr`; `ev` is `eval` at the remaining depth. -/
def evalCompExpr (ev : Val → Evaluator → Res Val) (compLit : String)
    (a b : Node) (e : Evaluator) : Res Val :=
  match ev (Val.node a) e with
  | Res.timeout => Res.timeout
  | Res.fault e1 => Res.fault e1
  | Res.ok va e1 =>
    match ev (Val.node b) e1 with
    | Res.timeout => Res.timeout
    | Res.fault e2 => Res.fault e2
    | Res.ok vb e2 =>
      match va, vb with
      | Val.int x, Val.int y =>
        match compLit with
        | "<" => Res.ok (Val.int (BtoI (decide (x < y)))) e2
        | "<=" => Res.ok (Val.int (BtoI (decide (x ≤ y)))) e2
        | "<>" => Res.ok (Val.int (BtoI (decide (x ≠ y)))) e2
        | ">" => Res.ok (Val.int (BtoI (decide (x > y)))) e2
        | ">=" => Res.ok (Val.int (BtoI (decide (x ≥ y)))) e2
        | "=" => Res.ok (Val.int (BtoI (decide (x = y)))) e2
        | _ => Res.ok (Val.int 0) e2
      | _, _ => Res.ok (Val.int 0) e2

/-- The source's `evalDefineExpr`: the definition node itself is bound. -/
def evalDefineExpr (name : String) (args : List String) (impl : List Node)
    (e : Evaluator) : Evaluator :=
  { e with scope := e.scope.Insert name (Val.node (Node.defineExpr name args impl)) }

/-- The source's `evalSetExpr`: the value node is bound unevaluated. -/
def evalSetExpr (name : String) (value : Node) (e : Evaluator) : Evaluator :=
  { e with scope := e.scope.Insert name (Val.node value) }

/-- An optional child as the interface value handed to `eval`. -/
def optNode (n : Option Node) : Val :=
  match n with
  | some x => Val.node x
  | none => Val.nil

/-- The source's `evalIfExpr`. -/
def evalIfExpr (ev : Val → Evaluator → Res Val) (comp thenN : Node)
    (elseN : Option Node) (e : Evaluator) : Res Val :=
  match ev (Val.node comp) e with
  | Res.timeout => Res.timeout
  | Res.fault e1 => Res.fault e1
  | Res.ok (Val.int x) e1 =>
    if x ≥ 1 then ev (Val.node thenN) e1 else ev (optNode elseN) e1
  | Res.ok _ e1 => ev (optNode elseN) e1

/-- The loop of `evalMathFunc` over `list[1:]` with accumulator `a`. -/
def mathLoop (ev : Val → Evaluator → Res Val) (fn : Int → Int → Option Int)
    (a : Int) (rest : List Node) (e : Evaluator) : Res Int :=
  match rest with
  | [] => Res.ok a e
  | n :: ns =>
    match ev (Val.node n) e with
    | Res.timeout => Res.timeout
    | Res.fault e1 => Res.fault e1
    | Res.ok (Val.int b) e1 =>
      match fn a b with
      | some c => mathLoop ev fn c ns e1
      | none => Res.fault e1
    | Res.ok _ e1 => Res.ok 0 e1

/-- The source's `evalMathFunc`; `list[0]` of an empty list is a fault. -/
def evalMathFunc (ev : Val → Evaluator → Res Val) (list : List Node)
    (fn : Int → Int → Option Int) (e : Evaluator) : Res Int :=
  match list with
  | [] => Res.fault e
  | n :: ns =>
    match ev (Val.node n) e with
    | Res.timeout => Res.timeout
    | Res.fault e1 => Res.fault e1
    | Res.ok (Val.int a) e1 => mathLoop ev fn a ns e1
    | Res.ok _ e1 => Res.ok 0 e1

/-- The source's `evalMathExpr`. -/
def evalMathExpr (ev : Val → Evaluator → Res Val) (opLit : String)
    (exprList : List Node) (e : Evaluator) : Res Val :=
  match mathFn opLit with
  | none => Res.ok Val.nil e
  | some fn =>
    match evalMathFunc ev exprList fn e with
    | Res.timeout => Res.timeout
    | Res.fault e1 => Res.fault e1
    | Res.ok a e1 => Res.ok (Val.int a) e1

/-- The first loop of `evalPrintExpr`: the operands are evaluated in order
and collected. -/
def printArgs (ev : Val → Evaluator → Res Val) (nodes : List Node)
    (e : Evaluator) : Res (List Val) :=
  match nodes with
  | [] => Res.ok [] e
  | n :: ns =>
    match ev (Val.node n) e with
    | Res.timeout => Res.timeout
    | Res.fault e1 => Res.fault e1
    | Res.ok x e1 =>
      match printArgs ev ns e1 with
      | Res.timeout => Res.timeout
      | Res.fault e2 => Res.fault e2
      | Res.ok xs e2 => Res.ok (x :: xs) e2

/-- The source's `evalPrintExpr`: one line is written to standard output. -/
def evalPrintExpr (ev : Val → Evaluator → Res Val) (nodes : List Node)
    (e : Evaluator) : Res Unit :=
  match printArgs ev nodes e with
  | Res.timeout => Res.timeout
  | Res.fault e1 => Res.fault e1
  | Res.ok args e1 => Res.ok () { e1 with out := e1.out ++ [args] }

/-- The first loop of `evalUserExpr`: parameter `i` is bound to the value of
argument `i`, evaluated in the new frame; the loop stops at the first
parameter without an argument. -/
def bindArgs (ev : Val → Evaluator → Res Val) (args : List String)
    (nodes : List Node) (e : Evaluator) : Res Unit :=
  match args, nodes with
  | a :: as, n :: ns =>
    match ev (Val.node n) e with
    | Res.timeout => Res.timeout
    | Res.fault e1 => Res.fault e1
    | Res.ok x e1 => bindArgs ev as ns { e1 with scope := e1.scope.Insert a x }
  | _, _ => Res.ok () e

/-- The second loop of `evalUserExpr`: the body expressions are evaluated
in order until one yields a value other than nil. -/
def bodyLoop (ev : Val → Evaluator → Res Val) (impl : List Node)
    (e : Evaluator) : Res Val :=
  match impl with
  | [] => Res.ok Val.nil e
  | v :: vs =>
    match ev (Val.node v) e with
    | Res.timeout => Res.timeout
    | Res.fault e1 => Res.fault e1
    | Res.ok Val.nil e1 => bodyLoop ev vs e1
    | Res.ok r e1 => Res.ok r e1

/-- The source's `evalUserExpr`.  When the name is not bound to a definition
`d` is a nil pointer and `d.Args` faults, after the scope was opened. -/
def evalUserExpr (ev : Val → Evaluator → Res Val) (name : String)
    (nodes : List Node) (e : Evaluator) : Res Val :=
  match e.scope.Lookup name with
  | Val.node (Node.defineExpr _ args impl) =>
    match bindArgs ev args nodes (openScope e) with
    | Res.timeout => Res.timeout
    | Res.fault e1 => Res.fault e1
    | Res.ok _ e1 =>
      match bodyLoop ev impl e1 with
      | Res.timeout => Res.timeout
      | Res.fault e2 => Res.fault e2
      | Res.ok r e2 =>
        match closeScope e2 with
        | some e3 => Res.ok r e3
        | none => Res.fault e2
  | _ => Res.fault (openScope e)

/-- The loop of the `*ast.File` case of `eval`; `x` is the result of the
previous child (nil before the first). -/
def fileLoop (ev : Val → Evaluator → Res Val) (nodes : List Node) (x : Val)
    (e : Evaluator) : Res Val :=
  match nodes with
  | [] => Res.ok x e
  | n :: ns =>
    match ev (Val.node n) e with
    | Res.timeout => Res.timeout
    | Res.fault e1 => Res.fault e1
    | Res.ok (Val.node (Node.identifier lit)) e1 =>
      Res.ok Val.nil { e1 with errors := e1.errors ++ ["Unknown identifier: " ++ lit] }
    | Res.ok y e1 => fileLoop ev ns y e1

/-- The source's `eval`, with a bound on the recursion depth. -/
def eval : Nat → Val → Evaluator → Res Val
  | 0, _, _ => Res.timeout
  | fuel + 1, n, e =>
    match n with
    | Val.nil => Res.ok Val.nil e
    | Val.int v => Res.ok (Val.int v) e
    | Val.node (Node.compExpr lit a b) => evalCompExpr (eval fuel) lit a b e
    | Val.node (Node.defineExpr name args impl) =>
      Res.ok Val.nil (evalDefineExpr name args impl e)
    | Val.node (Node.file nodes) => fileLoop (eval fuel) nodes Val.nil e
    | Val.node (Node.identifier lit) => eval fuel (e.scope.Lookup lit) e
    | Val.node (Node.ifExpr comp thenN elseN) => evalIfExpr (eval fuel) comp thenN elseN e
    | Val.node (Node.mathExpr opLit exprList) => evalMathExpr (eval fuel) opLit exprList e
    | Val.node (Node.number val) => Res.ok (Val.int val) e
    | Val.node (Node.printExpr nodes) =>
      match evalPrintExpr (eval fuel) nodes e with
      | Res.timeout => Res.timeout
      | Res.fault e1 => Res.fault e1
      | Res.ok _ e1 => Res.ok Val.nil e1
    | Val.node (Node.setExpr name value) => Res.ok Val.nil (evalSetExpr name value e)
    | Val.node (Node.userExpr name nodes) => evalUserExpr (eval fuel) name nodes e

/-! ## Specification-side definitions -/

/-- The binary integer function of an operator in the spec's words: ordinary
add, subtract, multiply, divide and remainder on `int`, and the logical
operators on "nonzero is true" re-encoded as 1 or 0. -/
def opFn (opLit : String) (a b : Int) : Int :=
  match opLit with
  | "+" => wrapInt (a + b)
  | "-" => wrapInt (a - b)
  | "*" => wrapInt (a * b)
  | "/" => wrapInt (Int.tdiv a b)
  | "%" => Int.tmod a b
  | "and" => if a ≠ 0 ∧ b ≠ 0 then 1 else 0
  | "or" => if a ≠ 0 ∨ b ≠ 0 then 1 else 0
  | _ => 0

/-- The operators of `evalMathExpr`. -/
def mathOps : List String :=
  ["+", "-", "*", "/", "%", "and", "or"]

/-- Whether a value is an integer (the type assertion `.(int)` succeeds). -/
def Val.isInt (v : Val) : Bool :=
  match v with
  | Val.int _ => true
  | _ => false

/-- The state reached by evaluating the given expressions in order when each
of them yields nil (`none` when one of them yields a value, faults or runs
out of budget). -/
def skipNil (ev : Val → Evaluator → Res Val) (nodes : List Node)
    (e : Evaluator) : Option Evaluator :=
  match nodes with
  | [] => some e
  | v :: vs =>
    match ev (Val.node v) e with
    | Res.ok Val.nil e1 => skipNil ev vs e1
    | _ => none

/-- The integers and the state obtained by evaluating the given operands in
order when each of them yields an integer (`none` otherwise). -/
def evalInts (ev : Val → Evaluator → Res Val) (nodes : List Node)
    (e : Evaluator) : Option (List Int × Evaluator) :=
  match nodes with
  | [] => some ([], e)
  | n :: ns =>
    match ev (Val.node n) e with
    | Res.ok (Val.int a) e1 =>
      match evalInts ev ns e1 with
      | some (vs, e2) => some (a :: vs, e2)
      | none => none
    | _ => none

/-- The accumulator after folding the closure of an operator over the given
integers, from the accumulator `a`; `none` when a step faults. -/
def foldSteps (fn : Int → Int → Option Int) (a : Int) (bs : List Int) : Option Int :=
  match bs with
  | [] => some a
  | b :: rest =>
    match fn a b with
    | some c => foldSteps fn c rest
    | none => none

/-- What every method of the evaluator keeps: on a normal return the chain
of enclosing frames and the error sink are as before and the result
satisfies `P`; on a fault the error sink is as before. -/
def Res.Keeps {α : Type} (P : α → Prop) (e : Evaluator) (r : Res α) : Prop :=
  match r with
  | Res.ok v e1 => e1.scope.outer = e.scope.outer ∧ e1.errors = e.errors ∧ P v
  | Res.fault e1 => e1.errors = e.errors
  | Res.timeout => True

/-- A value that is nil or an integer, never a syntax node. -/
def Val.plain (v : Val) : Prop :=
  match v with
  | Val.node _ => False
  | _ => True

/-- The results and the state obtained by evaluating the given expressions
in order, each from the state the one before it left (`none` when one of
them faults or runs out of budget). -/
def evalSeq (ev : Val → Evaluator → Res Val) (nodes : List Node)
    (e : Evaluator) : Option (List Val × Evaluator) :=
  match nodes with
  | [] => some ([], e)
  | n :: ns =>
    match ev (Val.node n) e with
    | Res.ok v e1 =>
      match evalSeq ev ns e1 with
      | some (vs, e2) => some (v :: vs, e2)
      | none => none
    | _ => none

/-- The integers that Go's `int` represents. -/
def inIntRange (x : Int) : Prop :=
  -(2 ^ (intBits - 1)) ≤ x ∧ x < 2 ^ (intBits - 1)

/-- The enclosing-expression relation: `Reaches fuel n e k m s` holds when
the evaluation of `n` from state `e` with budget `fuel` gets to evaluate `m`
from state `s` with budget `k`, every evaluation it makes before that one
having returned normally.  `m` is `n` itself, or sits in `n` as an operand,
a test, a branch, an argument, a body expression of the called function, a
child of the sequence, or the binding of a name that is read. -/
inductive Reaches : Nat → Val → Evaluator → Nat → Val → Evaluator → Prop where
  | here (fuel : Nat) (n : Val) (e : Evaluator) : Reaches fuel n e fuel n e
  | binding {fuel k : Nat} {lit : String} {e s : Evaluator} {m : Val} :
      Reaches fuel (e.scope.Lookup lit) e k m s →
      Reaches (fuel + 1) (Val.node (Node.identifier lit)) e k m s
  | compLeft {fuel k : Nat} {lit : String} {a b : Node} {e s : Evaluator} {m : Val} :
      Reaches fuel (Val.node a) e k m s →
      Reaches (fuel + 1) (Val.node (Node.compExpr lit a b)) e k m s
  | compRight {fuel k : Nat} {lit : String} {a b : Node} {va : Val}
      {e e1 s : Evaluator} {m : Val} :
      eval fuel (Val.node a) e = Res.ok va e1 →
      Reaches fuel (Val.node b) e1 k m s →
      Reaches (fuel + 1) (Val.node (Node.compExpr lit a b)) e k m s
  | ifTest {fuel k : Nat} {comp thenN : Node} {elseN : Option Node}
      {e s : Evaluator} {m : Val} :
      Reaches fuel (Val.node comp) e k m s →
      Reaches (fuel + 1) (Val.node (Node.ifExpr comp thenN elseN)) e k m s
  | ifThen {fuel k : Nat} {comp thenN : Node} {elseN : Option Node} {x : Int}
      {e e1 s : Evaluator} {m : Val} :
      eval fuel (Val.node comp) e = Res.ok (Val.int x) e1 → x ≥ 1 →
      Reaches fuel (Val.node thenN) e1 k m s →
      Reaches (fuel + 1) (Val.node (Node.ifExpr comp thenN elseN)) e k m s
  | ifElse {fuel k : Nat} {comp thenN : Node} {elseN : Option Node} {v : Val}
      {e e1 s : Evaluator} {m : Val} :
      eval fuel (Val.node comp) e = Res.ok v e1 → (∀ x : Int, v = Val.int x → x < 1) →
      Reaches fuel (optNode elseN) e1 k m s →
      Reaches (fuel + 1) (Val.node (Node.ifExpr comp thenN elseN)) e k m s
  | operand {fuel k : Nat} {opLit : String} {fn : Int → Int → Option Int}
      {pre post : List Node} {n : Node} {vs : List Int} {e e1 s : Evaluator} {m : Val} :
      mathFn opLit = some fn →
      evalInts (eval fuel) pre e = some (vs, e1) →
      (∀ c cs, vs = c :: cs → foldSteps fn c cs ≠ none) →
      Reaches fuel (Val.node n) e1 k m s →
      Reaches (fuel + 1) (Val.node (Node.mathExpr opLit (pre ++ n :: post))) e k m s
  | printed {fuel k : Nat} {pre post : List Node} {n : Node} {xs : List Val}
      {e e1 s : Evaluator} {m : Val} :
      printArgs (eval fuel) pre e = Res.ok xs e1 →
      Reaches fuel (Val.node n) e1 k m s →
      Reaches (fuel + 1) (Val.node (Node.printExpr (pre ++ n :: post))) e k m s
  | argument {fuel k : Nat} {name nm a : String} {apre apost : List String}
      {impl pre post : List Node} {n : Node} {e e1 s : Evaluator} {m : Val} :
      e.scope.Lookup name = Val.node (Node.defineExpr nm (apre ++ a :: apost) impl) →
      apre.length = pre.length →
      bindArgs (eval fuel) apre pre (openScope e) = Res.ok () e1 →
      Reaches fuel (Val.node n) e1 k m s →
      Reaches (fuel + 1) (Val.node (Node.userExpr name (pre ++ n :: post))) e k m s
  | body {fuel k : Nat} {name nm : String} {args : List String}
      {nodes pre post : List Node} {v : Node} {e e1 e2 s : Evaluator} {m : Val} :
      e.scope.Lookup name = Val.node (Node.defineExpr nm args (pre ++ v :: post)) →
      bindArgs (eval fuel) args nodes (openScope e) = Res.ok () e1 →
      skipNil (eval fuel) pre e1 = some e2 →
      Reaches fuel (Val.node v) e2 k m s →
      Reaches (fuel + 1) (Val.node (Node.userExpr name nodes)) e k m s
  | child {fuel k : Nat} {pre post : List Node} {n : Node} {x : Val}
      {e e1 s : Evaluator} {m : Val} :
      fileLoop (eval fuel) pre Val.nil e = Res.ok x e1 →
      Reaches fuel (Val.node n) e1 k m s →
      Reaches (fuel + 1) (Val.node (Node.file (pre ++ n :: post))) e k m s

/-! ## Initial states and example scopes -/

/-- The evaluator `EvalFile` starts from: no errors, the given root scope,
nothing printed. -/
def initial (s : Scope) : Evaluator :=
  { errors := [], scope := s, out := [] }

/-- The empty root scope. -/
def emptyScope : Scope :=
  { table := [], outer := [] }

/-- The root scope in which `f` is defined with no parameter and the body
print 1, 0, 7. -/
def scopePrintZeroSeven : Scope :=
  { table := [("f", Val.node (Node.defineExpr "f" []
      [Node.printExpr [Node.number 1], Node.number 0, Node.number 7]))],
    outer := [] }

/-- The root scope with a bound to 1, a function g with parameter a that
assigns a, defines h and prints a, and a function f with parameter a that
assigns z, prints a call of g and returns a. -/
def scopeNested : Scope :=
  { table :=
      [("a", Val.node (Node.number 1)),
       ("g", Val.node (Node.defineExpr "g" ["a"]
          [Node.setExpr "a" (Node.number 9),
           Node.defineExpr "h" [] [Node.number 4],
           Node.printExpr [Node.identifier "a"],
           Node.identifier "a"])),
       ("f", Val.node (Node.defineExpr "f" ["a"]
          [Node.setExpr "z" (Node.number 3),
           Node.printExpr [Node.userExpr "g" [Node.number 5]],
           Node.identifier "a"]))],
    outer := [] }

/-- The root scope in which a is bound to 1, `f` is defined with the
parameters a, b and the body b, and `h` with the parameters c, a, b and the
body b. -/
def scopeSequential : Scope :=
  { table :=
      [("a", Val.node (Node.number 1)),
       ("f", Val.node (Node.defineExpr "f" ["a", "b"] [Node.identifier "b"])),
       ("h", Val.node (Node.defineExpr "h" ["c", "a", "b"] [Node.identifier "b"]))],
    outer := [] }

/-- The root scope in which `g` is defined with no parameter and the body z,
and `f` with the parameter z and the body of a call of `g`; z is not bound. -/
def scopeDynamic : Scope :=
  { table :=
      [("g", Val.node (Node.defineExpr "g" [] [Node.identifier "z"])),
       ("f", Val.node (Node.defineExpr "f" ["z"] [Node.userExpr "g" []]))],
    outer := [] }

/-- The root scope in which `f` is defined with the parameter a and the
body a. -/
def scopeIdentity : Scope :=
  { table := [("f", Val.node (Node.defineExpr "f" ["a"] [Node.identifier "a"]))],
    outer := [] }

/-! ## Shared lemmas -/

theorem eval_number (fuel : Nat) (v : Int) (e : Evaluator) :
    eval (fuel + 1) (Val.node (Node.number v)) e = Res.ok (Val.int v) e := rfl

theorem eval_nil (fuel : Nat) (e : Evaluator) :
    eval (fuel + 1) Val.nil e = Res.ok Val.nil e := rfl

theorem eval_int (fuel : Nat) (v : Int) (e : Evaluator) :
    eval (fuel + 1) (Val.int v) e = Res.ok (Val.int v) e := rfl

theorem eval_compExpr (fuel : Nat) (lit : String) (a b : Node) (e : Evaluator) :
    eval (fuel + 1) (Val.node (Node.compExpr lit a b)) e
      = evalCompExpr (eval fuel) lit a b e := rfl

theorem eval_defineExpr (fuel : Nat) (name : String) (args : List String)
    (impl : List Node) (e : Evaluator) :
    eval (fuel + 1) (Val.node (Node.defineExpr name args impl)) e
      = Res.ok Val.nil (evalDefineExpr name args impl e) := rfl

theorem eval_file (fuel : Nat) (nodes : List Node) (e : Evaluator) :
    eval (fuel + 1) (Val.node (Node.file nodes)) e
      = fileLoop (eval fuel) nodes Val.nil e := rfl

theorem eval_identifier (fuel : Nat) (lit : String) (e : Evaluator) :
    eval (fuel + 1) (Val.node (Node.identifier lit)) e
      = eval fuel (e.scope.Lookup lit) e := rfl

theorem eval_ifExpr (fuel : Nat) (comp thenN : Node) (elseN : Option Node)
    (e : Evaluator) :
    eval (fuel + 1) (Val.node (Node.ifExpr comp thenN elseN)) e
      = evalIfExpr (eval fuel) comp thenN elseN e := rfl

theorem eval_mathExpr (fuel : Nat) (opLit : String) (exprList : List Node)
    (e : Evaluator) :
    eval (fuel + 1) (Val.node (Node.mathExpr opLit exprList)) e
      = evalMathExpr (eval fuel) opLit exprList e := rfl

theorem eval_printExpr (fuel : Nat) (nodes : List Node) (e : Evaluator) :
    eval (fuel + 1) (Val.node (Node.printExpr nodes)) e
      = (match evalPrintExpr (eval fuel) nodes e with
        | Res.timeout => Res.timeout
        | Res.fault e1 => Res.fault e1
        | Res.ok _ e1 => Res.ok Val.nil e1) := rfl

theorem eval_setExpr (fuel : Nat) (name : String) (value : Node) (e : Evaluator) :
    eval (fuel + 1) (Val.node (Node.setExpr name value)) e
      = Res.ok Val.nil (evalSetExpr name value e) := rfl

theorem eval_userExpr (fuel : Nat) (name : String) (nodes : List Node)
    (e : Evaluator) :
    eval (fuel + 1) (Val.node (Node.userExpr name nodes)) e
      = evalUserExpr (eval fuel) name nodes e := rfl

theorem mathLoop_literals (fuel : Nat) (fn : Int → Int → Option Int)
    (g : Int → Int → Int) (xs : List Int) (e : Evaluator) :
    ∀ a : Int, (∀ c : Int, ∀ y ∈ xs, fn c y = some (g c y)) →
      mathLoop (eval (fuel + 1)) fn a (xs.map Node.number) e
        = Res.ok (xs.foldl g a) e := by
  induction xs with
  | nil => intro a _; simp [mathLoop]
  | cons y ys ih =>
    intro a h
    have hy : fn a y = some (g a y) := h a y (by simp)
    simp only [List.map_cons, mathLoop, eval_number, hy, List.foldl_cons]
    exact ih (g a y) (fun c z hz => h c z (by simp [hz]))

theorem evalMathFunc_literals (fuel : Nat) (fn : Int → Int → Option Int)
    (g : Int → Int → Int) (x : Int) (xs : List Int) (e : Evaluator)
    (h : ∀ c : Int, ∀ y ∈ xs, fn c y = some (g c y)) :
    evalMathFunc (eval (fuel + 1)) ((x :: xs).map Node.number) fn e
      = Res.ok (xs.foldl g x) e := by
  simp only [List.map_cons, evalMathFunc, eval_number]
  exact mathLoop_literals fuel fn g xs e x h

theorem Res.Keeps.trans {α : Type} {P : α → Prop} {e e1 : Evaluator} {r : Res α}
    (ho : e1.scope.outer = e.scope.outer) (he : e1.errors = e.errors)
    (h : Res.Keeps P e1 r) : Res.Keeps P e r := by
  cases r with
  | ok v e2 =>
    obtain ⟨h1, h2, h3⟩ := h
    exact ⟨h1.trans ho, h2.trans he, h3⟩
  | fault e2 => exact Eq.trans h he
  | timeout => trivial

theorem evalCompExpr_keeps (ev : Val → Evaluator → Res Val)
    (hev : ∀ n e, Res.Keeps Val.plain e (ev n e)) (lit : String) (a b : Node)
    (e : Evaluator) : Res.Keeps Val.plain e (evalCompExpr ev lit a b e) := by
  unfold evalCompExpr
  have ha := hev (Val.node a) e
  split
  · trivial
  · rename_i e1 hr; rw [hr] at ha; exact ha
  · rename_i va e1 hr
    rw [hr] at ha
    have hb := hev (Val.node b) e1
    split
    · trivial
    · rename_i e2 hr2; rw [hr2] at hb; exact Eq.trans hb ha.2.1
    · rename_i vb e2 hr2
      rw [hr2] at hb
      have hk : ∀ z : Int, Res.Keeps Val.plain e (Res.ok (Val.int z) e2) :=
        fun z => ⟨hb.1.trans ha.1, hb.2.1.trans ha.2.1, trivial⟩
      split
      · split <;> exact hk _
      · exact hk _

theorem evalIfExpr_keeps (ev : Val → Evaluator → Res Val)
    (hev : ∀ n e, Res.Keeps Val.plain e (ev n e)) (comp thenN : Node)
    (elseN : Option Node) (e : Evaluator) :
    Res.Keeps Val.plain e (evalIfExpr ev comp thenN elseN e) := by
  unfold evalIfExpr
  have hc := hev (Val.node comp) e
  split
  · trivial
  · rename_i e1 hr; rw [hr] at hc; exact hc
  · rename_i x e1 hr
    rw [hr] at hc
    split
    · exact Res.Keeps.trans hc.1 hc.2.1 (hev _ e1)
    · exact Res.Keeps.trans hc.1 hc.2.1 (hev _ e1)
  · rename_i v e1 _ hr
    rw [hr] at hc
    exact Res.Keeps.trans hc.1 hc.2.1 (hev _ e1)

theorem mathLoop_keeps (ev : Val → Evaluator → Res Val)
    (hev : ∀ n e, Res.Keeps Val.plain e (ev n e)) (fn : Int → Int → Option Int)
    (rest : List Node) :
    ∀ (a : Int) (e : Evaluator),
      Res.Keeps (fun _ => True) e (mathLoop ev fn a rest e) := by
  induction rest with
  | nil => intro a e; exact ⟨rfl, rfl, trivial⟩
  | cons n ns ih =>
    intro a e
    unfold mathLoop
    have hn := hev (Val.node n) e
    split
    · trivial
    · rename_i e1 hr; rw [hr] at hn; exact hn
    · rename_i b e1 hr
      rw [hr] at hn
      split
      · exact Res.Keeps.trans hn.1 hn.2.1 (ih _ e1)
      · exact hn.2.1
    · rename_i v e1 _ hr
      rw [hr] at hn
      exact ⟨hn.1, hn.2.1, trivial⟩

theorem evalMathFunc_keeps (ev : Val → Evaluator → Res Val)
    (hev : ∀ n e, Res.Keeps Val.plain e (ev n e)) (list : List Node)
    (fn : Int → Int → Option Int) (e : Evaluator) :
    Res.Keeps (fun _ => True) e (evalMathFunc ev list fn e) := by
  unfold evalMathFunc
  split
  · rfl
  · rename_i n ns
    have hn := hev (Val.node n) e
    split
    · trivial
    · rename_i e1 hr; rw [hr] at hn; exact hn
    · rename_i a e1 hr
      rw [hr] at hn
      exact Res.Keeps.trans hn.1 hn.2.1 (mathLoop_keeps ev hev fn ns a e1)
    · rename_i v e1 _ hr
      rw [hr] at hn
      exact ⟨hn.1, hn.2.1, trivial⟩

theorem evalMathExpr_keeps (ev : Val → Evaluator → Res Val)
    (hev : ∀ n e, Res.Keeps Val.plain e (ev n e)) (opLit : String)
    (exprList : List Node) (e : Evaluator) :
    Res.Keeps Val.plain e (evalMathExpr ev opLit exprList e) := by
  unfold evalMathExpr
  split
  · exact ⟨rfl, rfl, trivial⟩
  · rename_i fn _
    have h := evalMathFunc_keeps ev hev exprList fn e
    split
    · trivial
    · rename_i e1 hr; rw [hr] at h; exact h
    · rename_i a e1 hr
      rw [hr] at h
      exact ⟨h.1, h.2.1, trivial⟩

theorem printArgs_keeps (ev : Val → Evaluator → Res Val)
    (hev : ∀ n e, Res.Keeps Val.plain e (ev n e)) (nodes : List Node) :
    ∀ e : Evaluator, Res.Keeps (fun _ => True) e (printArgs ev nodes e) := by
  induction nodes with
  | nil => intro e; exact ⟨rfl, rfl, trivial⟩
  | cons n ns ih =>
    intro e
    unfold printArgs
    have hn := hev (Val.node n) e
    split
    · trivial
    · rename_i e1 hr; rw [hr] at hn; exact hn
    · rename_i x e1 hr
      rw [hr] at hn
      have h2 := ih e1
      split
      · trivial
      · rename_i e2 hr2; rw [hr2] at h2; exact Eq.trans h2 hn.2.1
      · rename_i xs e2 hr2
        rw [hr2] at h2
        exact ⟨h2.1.trans hn.1, h2.2.1.trans hn.2.1, trivial⟩

theorem evalPrintExpr_keeps (ev : Val → Evaluator → Res Val)
    (hev : ∀ n e, Res.Keeps Val.plain e (ev n e)) (nodes : List Node)
    (e : Evaluator) :
    Res.Keeps (fun _ => True) e (evalPrintExpr ev nodes e) := by
  unfold evalPrintExpr
  have h := printArgs_keeps ev hev nodes e
  split
  · trivial
  · rename_i e1 hr; rw [hr] at h; exact h
  · rename_i args e1 hr
    rw [hr] at h
    exact ⟨h.1, h.2.1, trivial⟩

theorem bindArgs_keeps (ev : Val → Evaluator → Res Val)
    (hev : ∀ n e, Res.Keeps Val.plain e (ev n e)) (args : List String) :
    ∀ (nodes : List Node) (e : Evaluator),
      Res.Keeps (fun _ => True) e (bindArgs ev args nodes e) := by
  induction args with
  | nil => intro nodes e; unfold bindArgs; exact ⟨rfl, rfl, trivial⟩
  | cons a as ih =>
    intro nodes e
    cases nodes with
    | nil => unfold bindArgs; exact ⟨rfl, rfl, trivial⟩
    | cons n ns =>
      unfold bindArgs
      have hn := hev (Val.node n) e
      split
      · trivial
      · rename_i e1 hr; rw [hr] at hn; exact hn
      · rename_i x e1 hr
        rw [hr] at hn
        exact Res.Keeps.trans hn.1 hn.2.1 (ih ns _)

theorem bodyLoop_keeps (ev : Val → Evaluator → Res Val)
    (hev : ∀ n e, Res.Keeps Val.plain e (ev n e)) (impl : List Node) :
    ∀ e : Evaluator, Res.Keeps Val.plain e (bodyLoop ev impl e) := by
  induction impl with
  | nil => intro e; exact ⟨rfl, rfl, trivial⟩
  | cons v vs ih =>
    intro e
    unfold bodyLoop
    have hv := hev (Val.node v) e
    split
    · trivial
    · rename_i e1 hr; rw [hr] at hv; exact hv
    · rename_i e1 hr
      rw [hr] at hv
      exact Res.Keeps.trans hv.1 hv.2.1 (ih e1)
    · rename_i r e1 _ hr
      rw [hr] at hv
      exact hv

theorem closeScope_of_outer (e e2 : Evaluator)
    (h : e2.scope.outer = e.scope.table :: e.scope.outer) :
    closeScope e2 = some { e2 with scope := e.scope } := by
  unfold closeScope Scope.Parent
  rw [h]

/-- A call whose argument binding and body return normally returns the
value of the body in the state the body left, with the scope of the caller
restored. -/
theorem evalUserExpr_of_body (ev : Val → Evaluator → Res Val)
    (hev : ∀ n e, Res.Keeps Val.plain e (ev n e)) (name : String)
    (nodes : List Node) (e e1 e2 : Evaluator) (nm : String)
    (args : List String) (impl : List Node) (r : Val)
    (hd : e.scope.Lookup name = Val.node (Node.defineExpr nm args impl))
    (hb : bindArgs ev args nodes (openScope e) = Res.ok () e1)
    (hr : bodyLoop ev impl e1 = Res.ok r e2) :
    evalUserExpr ev name nodes e = Res.ok r { e2 with scope := e.scope } := by
  have h1 := bindArgs_keeps ev hev args nodes (openScope e)
  rw [hb] at h1
  have h2 := bodyLoop_keeps ev hev impl e1
  rw [hr] at h2
  have ho : e2.scope.outer = e.scope.table :: e.scope.outer :=
    h2.1.trans h1.1
  unfold evalUserExpr
  simp only [hd, hb, hr, closeScope_of_outer e e2 ho]

/-- A call that returns normally went through a definition, a binding of the
arguments and a body that returned. -/
theorem evalUserExpr_ok_inv (ev : Val → Evaluator → Res Val)
    (hev : ∀ n e, Res.Keeps Val.plain e (ev n e)) (name : String)
    (nodes : List Node) (e e3 : Evaluator) (r : Val)
    (h : evalUserExpr ev name nodes e = Res.ok r e3) :
    ∃ nm args impl e1 e2,
      e.scope.Lookup name = Val.node (Node.defineExpr nm args impl)
      ∧ bindArgs ev args nodes (openScope e) = Res.ok () e1
      ∧ bodyLoop ev impl e1 = Res.ok r e2
      ∧ e3 = { e2 with scope := e.scope } := by
  unfold evalUserExpr at h
  split at h
  · rename_i nm args impl hd
    split at h
    · exact absurd h (by simp)
    · exact absurd h (by simp)
    · rename_i u e1 hb
      split at h
      · exact absurd h (by simp)
      · exact absurd h (by simp)
      · rename_i r2 e2 hr
        have h1 := bindArgs_keeps ev hev args nodes (openScope e)
        rw [hb] at h1
        have h2 := bodyLoop_keeps ev hev impl e1
        rw [hr] at h2
        have ho : e2.scope.outer = e.scope.table :: e.scope.outer :=
          h2.1.trans h1.1
        rw [closeScope_of_outer e e2 ho] at h
        simp only [Res.ok.injEq] at h
        exact ⟨nm, args, impl, e1, e2, hd, hb, h.1 ▸ hr, h.2.symm⟩
  · exact absurd h (by simp)

theorem evalUserExpr_keeps (ev : Val → Evaluator → Res Val)
    (hev : ∀ n e, Res.Keeps Val.plain e (ev n e)) (name : String)
    (nodes : List Node) (e : Evaluator) :
    Res.Keeps Val.plain e (evalUserExpr ev name nodes e) := by
  unfold evalUserExpr
  split
  · rename_i nm args impl hd
    have h1 := bindArgs_keeps ev hev args nodes (openScope e)
    split
    · trivial
    · rename_i e1 hb; rw [hb] at h1; exact h1
    · rename_i u e1 hb
      rw [hb] at h1
      have h2 := bodyLoop_keeps ev hev impl e1
      split
      · trivial
      · rename_i e2 hr; rw [hr] at h2; exact Eq.trans h2 h1.2.1
      · rename_i r e2 hr
        rw [hr] at h2
        have ho : e2.scope.outer = e.scope.table :: e.scope.outer :=
          h2.1.trans h1.1
        rw [closeScope_of_outer e e2 ho]
        exact ⟨rfl, h2.2.1.trans h1.2.1, h2.2.2⟩
  · rfl

theorem fileLoop_keeps (ev : Val → Evaluator → Res Val)
    (hev : ∀ n e, Res.Keeps Val.plain e (ev n e)) (nodes : List Node) :
    ∀ (x : Val) (e : Evaluator), x.plain →
      Res.Keeps Val.plain e (fileLoop ev nodes x e) := by
  induction nodes with
  | nil => intro x e hx; exact ⟨rfl, rfl, hx⟩
  | cons n ns ih =>
    intro x e _
    unfold fileLoop
    have hn := hev (Val.node n) e
    split
    · trivial
    · rename_i e1 hr; rw [hr] at hn; exact hn
    · rename_i lit e1 hr
      rw [hr] at hn
      exact absurd hn.2.2 (by simp [Val.plain])
    · rename_i y e1 _ hr
      rw [hr] at hn
      exact Res.Keeps.trans hn.1 hn.2.1 (ih y e1 hn.2.2)

/-- Every evaluation keeps the enclosing frames and the error sink, and
returns nil or an integer. -/
theorem eval_keeps (fuel : Nat) :
    ∀ (n : Val) (e : Evaluator), Res.Keeps Val.plain e (eval fuel n e) := by
  induction fuel with
  | zero => intro n e; trivial
  | succ k ih =>
    intro n e
    cases n with
    | nil => exact ⟨rfl, rfl, trivial⟩
    | int v => exact ⟨rfl, rfl, trivial⟩
    | node m =>
      cases m with
      | number v => exact ⟨rfl, rfl, trivial⟩
      | identifier lit => rw [eval_identifier]; exact ih _ e
      | compExpr lit a b => rw [eval_compExpr]; exact evalCompExpr_keeps _ ih lit a b e
      | defineExpr name args impl => exact ⟨rfl, rfl, trivial⟩
      | ifExpr c t el => rw [eval_ifExpr]; exact evalIfExpr_keeps _ ih c t el e
      | mathExpr op l => rw [eval_mathExpr]; exact evalMathExpr_keeps _ ih op l e
      | printExpr ns =>
        rw [eval_printExpr]
        have h := evalPrintExpr_keeps _ ih ns e
        split
        · trivial
        · rename_i e1 hr; rw [hr] at h; exact h
        · rename_i u e1 hr
          rw [hr] at h
          exact ⟨h.1, h.2.1, trivial⟩
      | setExpr name v => exact ⟨rfl, rfl, trivial⟩
      | userExpr name ns => rw [eval_userExpr]; exact evalUserExpr_keeps _ ih name ns e
      | file ns => rw [eval_file]; exact fileLoop_keeps _ ih ns Val.nil e trivial

theorem Table.find_erase_ne (t : Table) (name other : String) (h : other ≠ name) :
    Table.find (t.erase name) other = Table.find t other := by
  induction t with
  | nil => rfl
  | cons p rest ih =>
    obtain ⟨k, v⟩ := p
    by_cases hk : k = name
    · subst hk
      have hne : ¬ k = other := fun hko => h hko.symm
      simp only [Table.erase, Table.find, hne, if_true, if_false]
      exact ih
    · by_cases hko : k = other
      · subst hko
        simp only [Table.erase, Table.find, hk, if_true, if_false]
      · simp only [Table.erase, Table.find, hk, hko, if_false]
        exact ih

theorem Table.find_insert_same (t : Table) (name : String) (v : Val) :
    Table.find (t.insert name v) name = some v := by
  simp [Table.insert, Table.find]

theorem Table.find_insert_other (t : Table) (name other : String) (v : Val)
    (h : other ≠ name) :
    Table.find (t.insert name v) other = Table.find t other := by
  have hne : ¬ name = other := fun hk => h hk.symm
  simp only [Table.insert, Table.find, hne, if_false]
  exact Table.find_erase_ne t name other h

theorem Scope.Lookup_Insert_same (s : Scope) (name : String) (v : Val) :
    (s.Insert name v).Lookup name = v := by
  simp [Scope.Lookup, Scope.Insert, lookupTables, Table.find_insert_same]

theorem Scope.Lookup_Insert_other (s : Scope) (name other : String) (v : Val)
    (h : other ≠ name) :
    (s.Insert name v).Lookup other = s.Lookup other := by
  simp [Scope.Lookup, Scope.Insert, lookupTables, Table.find_insert_other _ _ _ _ h]

theorem bodyLoop_skipNil (ev : Val → Evaluator → Res Val) (pre rest : List Node) :
    ∀ e e2 : Evaluator, skipNil ev pre e = some e2 →
      bodyLoop ev (pre ++ rest) e = bodyLoop ev rest e2 := by
  induction pre with
  | nil =>
    intro e e2 h
    simp only [skipNil, Option.some.injEq] at h
    subst h
    rfl
  | cons v vs ih =>
    intro e e2 h
    unfold skipNil at h
    split at h
    · rename_i e1 hr
      simp only [List.cons_append, bodyLoop, hr]
      exact ih e1 e2 h
    · exact absurd h (by simp)

theorem foldl_and (rest : List Int) :
    ∀ a y : Int, (y :: rest).foldl (opFn "and") a
      = if a ≠ 0 ∧ ∀ z ∈ y :: rest, z ≠ 0 then 1 else 0 := by
  induction rest with
  | nil =>
    intro a y
    simp [opFn]
  | cons w ws ih =>
    intro a y
    rw [List.foldl_cons, ih]
    by_cases ha : a = 0 <;> by_cases hy : y = 0 <;> simp [opFn, ha, hy]

theorem foldl_or (rest : List Int) :
    ∀ a y : Int, (y :: rest).foldl (opFn "or") a
      = if a ≠ 0 ∨ ∃ z ∈ y :: rest, z ≠ 0 then 1 else 0 := by
  induction rest with
  | nil =>
    intro a y
    simp [opFn]
  | cons w ws ih =>
    intro a y
    rw [List.foldl_cons, ih]
    by_cases ha : a = 0 <;> by_cases hy : y = 0 <;> simp [opFn, ha, hy]

theorem mathLoop_evalInts (ev : Val → Evaluator → Res Val)
    (fn : Int → Int → Option Int) (pre rest : List Node) :
    ∀ (a c : Int) (vs : List Int) (e e1 : Evaluator),
      evalInts ev pre e = some (vs, e1) → foldSteps fn a vs = some c →
      mathLoop ev fn a (pre ++ rest) e = mathLoop ev fn c rest e1 := by
  induction pre with
  | nil =>
    intro a c vs e e1 h hf
    simp only [evalInts, Option.some.injEq, Prod.mk.injEq] at h
    obtain ⟨hvs, he⟩ := h
    subst hvs
    subst he
    simp only [foldSteps, Option.some.injEq] at hf
    subst hf
    rfl
  | cons n ns ih =>
    intro a c vs e e1 h hf
    unfold evalInts at h
    split at h
    · rename_i b e2 hr
      split at h
      · rename_i ws e3 hns
        simp only [Option.some.injEq, Prod.mk.injEq] at h
        obtain ⟨hvs, he⟩ := h
        subst hvs
        subst he
        unfold foldSteps at hf
        split at hf
        · rename_i d hd
          simp only [List.cons_append, mathLoop, hr, hd]
          exact ih d c ws e2 e3 hns hf
        · exact absurd hf (by simp)
      · exact absurd h (by simp)
    · exact absurd h (by simp)

theorem Scope.Lookup_NewScope (s : Scope) (name : String) :
    (NewScope s).Lookup name = s.Lookup name := by
  simp [Scope.Lookup, NewScope, lookupTables, Table.find]

theorem printArgs_reach (ev : Val → Evaluator → Res Val) (n : Node)
    (post : List Node) (s : Evaluator) (pre : List Node) :
    ∀ (xs : List Val) (e e1 : Evaluator), printArgs ev pre e = Res.ok xs e1 →
      ev (Val.node n) e1 = Res.fault s →
      printArgs ev (pre ++ n :: post) e = Res.fault s := by
  induction pre with
  | nil =>
    intro xs e e1 h hn
    simp only [printArgs, Res.ok.injEq] at h
    obtain ⟨_, he⟩ := h
    subst he
    simp only [List.nil_append, printArgs, hn]
  | cons p ps ih =>
    intro xs e e1 h hn
    unfold printArgs at h
    split at h
    · exact absurd h (by simp)
    · exact absurd h (by simp)
    · rename_i x e0 hp
      split at h
      · exact absurd h (by simp)
      · exact absurd h (by simp)
      · rename_i ys e3 hps
        simp only [Res.ok.injEq] at h
        obtain ⟨_, he⟩ := h
        subst he
        simp only [List.cons_append]
        unfold printArgs
        rw [hp]
        dsimp only
        rw [ih ys e0 e3 hps hn]

theorem bindArgs_append (ev : Val → Evaluator → Res Val) (arest : List String)
    (rest : List Node) (apre : List String) :
    ∀ (pre : List Node) (e e1 : Evaluator), apre.length = pre.length →
      bindArgs ev apre pre e = Res.ok () e1 →
      bindArgs ev (apre ++ arest) (pre ++ rest) e = bindArgs ev arest rest e1 := by
  induction apre with
  | nil =>
    intro pre e e1 hlen h
    cases pre with
    | cons p ps => simp at hlen
    | nil =>
      unfold bindArgs at h
      simp only [Res.ok.injEq, true_and] at h
      subst h
      rfl
  | cons a as ih =>
    intro pre e e1 hlen h
    cases pre with
    | nil => simp at hlen
    | cons p ps =>
      unfold bindArgs at h
      split at h
      · exact absurd h (by simp)
      · exact absurd h (by simp)
      · rename_i x e0 hp
        simp only [List.cons_append, bindArgs, hp]
        exact ih ps _ e1 (by simpa using hlen) h

theorem fileLoop_append (ev : Val → Evaluator → Res Val)
    (hev : ∀ n e, Res.Keeps Val.plain e (ev n e)) (rest : List Node)
    (pre : List Node) :
    ∀ (x y : Val) (e e1 : Evaluator), fileLoop ev pre x e = Res.ok y e1 →
      fileLoop ev (pre ++ rest) x e = fileLoop ev rest y e1 := by
  induction pre with
  | nil =>
    intro x y e e1 h
    simp only [fileLoop, Res.ok.injEq] at h
    obtain ⟨hx, he⟩ := h
    subst hx
    subst he
    rfl
  | cons p ps ih =>
    intro x y e e1 h
    have hp := hev (Val.node p) e
    unfold fileLoop at h
    split at h
    · exact absurd h (by simp)
    · exact absurd h (by simp)
    · rename_i lit e0 hr
      rw [hr] at hp
      exact absurd hp.2.2 (by simp [Val.plain])
    · rename_i z e0 hz hr
      simp only [List.cons_append]
      conv_lhs => unfold fileLoop
      rw [hr]
      cases z with
      | nil => exact ih _ y e0 e1 h
      | int q => exact ih _ y e0 e1 h
      | node m =>
        rw [hr] at hp
        exact absurd hp.2.2 (by simp [Val.plain])

/-- The fold over operands that start with operands yielding integers, none
of the steps over them faulting, goes on with the loop over the remaining
operands. -/
theorem evalMathFunc_after_ints (ev : Val → Evaluator → Res Val)
    (fn : Int → Int → Option Int) (p : Node) (ps rest : List Node) (vs : List Int)
    (e e1 : Evaluator) (hpre : evalInts ev (p :: ps) e = some (vs, e1))
    (hstep : ∀ c cs, vs = c :: cs → foldSteps fn c cs ≠ none) :
    ∃ acc : Int, evalMathFunc ev (p :: ps ++ rest) fn e = mathLoop ev fn acc rest e1 := by
  unfold evalInts at hpre
  split at hpre
  · rename_i c0 s0 hp
    split at hpre
    · rename_i ws s3 hps
      simp only [Option.some.injEq, Prod.mk.injEq] at hpre
      obtain ⟨hvs, hs⟩ := hpre
      subst hs
      have hne := hstep c0 ws hvs.symm
      cases hfs : foldSteps fn c0 ws with
      | none => exact absurd hfs hne
      | some acc =>
        refine ⟨acc, ?_⟩
        simp only [List.cons_append, evalMathFunc, hp]
        exact mathLoop_evalInts ev fn ps rest c0 acc ws s0 s3 hps hfs
    · exact absurd hpre (by simp)
  · exact absurd hpre (by simp)

/-- A fault of an evaluation that is reached is the outcome of the enclosing
evaluation: nothing in the evaluator recovers from a fault. -/
theorem Reaches.fault {fuel k : Nat} {n m : Val} {e s : Evaluator}
    (h : Reaches fuel n e k m s) :
    ∀ t : Evaluator, eval k m s = Res.fault t → eval fuel n e = Res.fault t := by
  induction h with
  | here fuel n e => intro t ht; exact ht
  | binding _ ih =>
    intro t ht
    rw [eval_identifier]
    exact ih t ht
  | compLeft _ ih =>
    intro t ht
    rw [eval_compExpr]
    simp only [evalCompExpr, ih t ht]
  | compRight ha _ ih =>
    intro t ht
    rw [eval_compExpr]
    simp only [evalCompExpr, ha, ih t ht]
  | ifTest _ ih =>
    intro t ht
    rw [eval_ifExpr]
    simp only [evalIfExpr, ih t ht]
  | ifThen hc hx _ ih =>
    intro t ht
    rw [eval_ifExpr]
    simp only [evalIfExpr, hc, hx, if_true]
    exact ih t ht
  | @ifElse fuel k comp thenN elseN v e e1 s m hc hv _ ih =>
    intro t ht
    rw [eval_ifExpr]
    unfold evalIfExpr
    rw [hc]
    cases v with
    | nil => exact ih t ht
    | node w => exact ih t ht
    | int x =>
      have hx : ¬ x ≥ 1 := not_le.mpr (hv x rfl)
      simp only [hx, if_false]
      exact ih t ht
  | @operand fuel k opLit fn pre post n vs e e1 s m hfn hpre hstep _ ih =>
    intro t ht
    rw [eval_mathExpr]
    simp only [evalMathExpr, hfn]
    cases pre with
    | nil =>
      simp only [evalInts, Option.some.injEq, Prod.mk.injEq] at hpre
      obtain ⟨_, hs⟩ := hpre
      subst hs
      simp only [List.nil_append, evalMathFunc, ih t ht]
    | cons p ps =>
      obtain ⟨acc, hacc⟩ :=
        evalMathFunc_after_ints (eval fuel) fn p ps (n :: post) vs e e1 hpre hstep
      rw [hacc]
      simp only [mathLoop, ih t ht]
  | printed hpre _ ih =>
    intro t ht
    rw [eval_printExpr]
    simp only [evalPrintExpr, printArgs_reach _ _ _ _ _ _ _ _ hpre (ih t ht)]
  | @argument fuel k name nm a apre apost impl pre post n e e1 s m hd hlen hb _ ih =>
    intro t ht
    rw [eval_userExpr]
    unfold evalUserExpr
    simp only [hd]
    rw [bindArgs_append (eval fuel) (a :: apost) (n :: post) apre pre _ e1 hlen hb]
    simp only [bindArgs, ih t ht]
  | @body fuel k name nm args nodes pre post v e e1 e2 s m hd hb hpre _ ih =>
    intro t ht
    rw [eval_userExpr]
    unfold evalUserExpr
    simp only [hd, hb]
    rw [bodyLoop_skipNil (eval fuel) pre (v :: post) e1 e2 hpre]
    simp only [bodyLoop, ih t ht]
  | @child fuel k pre post n x e e1 s m hpre _ ih =>
    intro t ht
    rw [eval_file, fileLoop_append (eval fuel) (eval_keeps fuel) (n :: post) pre _ x e e1 hpre]
    simp only [fileLoop, ih t ht]

theorem mathLoop_evalInts_none (ev : Val → Evaluator → Res Val)
    (fn : Int → Int → Option Int) (rest : List Node) (pre : List Node) :
    ∀ (a : Int) (vs : List Int) (e e1 : Evaluator),
      evalInts ev pre e = some (vs, e1) → foldSteps fn a vs = none →
      ∃ t : Evaluator, mathLoop ev fn a (pre ++ rest) e = Res.fault t := by
  induction pre with
  | nil =>
    intro a vs e e1 h hf
    simp only [evalInts, Option.some.injEq, Prod.mk.injEq] at h
    obtain ⟨hvs, _⟩ := h
    subst hvs
    simp [foldSteps] at hf
  | cons n ns ih =>
    intro a vs e e1 h hf
    unfold evalInts at h
    split at h
    · rename_i b e2 hr
      split at h
      · rename_i ws e3 hns
        simp only [Option.some.injEq, Prod.mk.injEq] at h
        obtain ⟨hvs, _⟩ := h
        subst hvs
        unfold foldSteps at hf
        split at hf
        · rename_i d hd
          obtain ⟨t, ht⟩ := ih d ws e2 e3 hns hf
          refine ⟨t, ?_⟩
          simp only [List.cons_append, mathLoop, hr, hd]
          exact ht
        · rename_i hd
          refine ⟨e2, ?_⟩
          simp only [List.cons_append, mathLoop, hr, hd]
      · exact absurd h (by simp)
    · exact absurd h (by simp)

theorem foldSteps_of_nonzero (fn : Int → Int → Option Int)
    (hfn : ∀ a b : Int, b ≠ 0 → fn a b ≠ none) (cs : List Int) :
    ∀ c : Int, (∀ d ∈ cs, d ≠ 0) → foldSteps fn c cs ≠ none := by
  induction cs with
  | nil => intro c _; simp [foldSteps]
  | cons d ds ih =>
    intro c h
    unfold foldSteps
    cases hf : fn c d with
    | none => exact absurd hf (hfn c d (h d (by simp)))
    | some w => exact ih w (fun z hz => h z (by simp [hz]))

theorem fileLoop_evalSeq (ev : Val → Evaluator → Res Val)
    (hev : ∀ n e, Res.Keeps Val.plain e (ev n e)) (rest : List Node)
    (pre : List Node) :
    ∀ (x : Val) (vs : List Val) (e e1 : Evaluator),
      evalSeq ev pre e = some (vs, e1) →
      ∃ y : Val, fileLoop ev (pre ++ rest) x e = fileLoop ev rest y e1 := by
  induction pre with
  | nil =>
    intro x vs e e1 h
    simp only [evalSeq, Option.some.injEq, Prod.mk.injEq] at h
    obtain ⟨_, he⟩ := h
    subst he
    exact ⟨x, rfl⟩
  | cons p ps ih =>
    intro x vs e e1 h
    have hp := hev (Val.node p) e
    unfold evalSeq at h
    split at h
    · rename_i v e0 hr
      split at h
      · rename_i ws e3 hps
        simp only [Option.some.injEq, Prod.mk.injEq] at h
        obtain ⟨_, he⟩ := h
        subst he
        obtain ⟨y, hy⟩ := ih v ws e0 e3 hps
        refine ⟨y, ?_⟩
        rw [hr] at hp
        simp only [List.cons_append]
        conv_lhs => unfold fileLoop
        rw [hr]
        cases v with
        | nil => exact hy
        | int q => exact hy
        | node m => exact absurd hp.2.2 (by simp [Val.plain])
      · exact absurd h (by simp)
    · exact absurd h (by simp)

theorem fileLoop_last (ev : Val → Evaluator → Res Val)
    (hev : ∀ n e, Res.Keeps Val.plain e (ev n e)) (n : Node) (x : Val)
    (e : Evaluator) :
    fileLoop ev [n] x e = ev (Val.node n) e := by
  have hn := hev (Val.node n) e
  unfold fileLoop
  cases hr : ev (Val.node n) e with
  | timeout => rfl
  | fault t => rfl
  | ok v e1 =>
    rw [hr] at hn
    cases v with
    | nil => rfl
    | int q => rfl
    | node m => exact absurd hn.2.2 (by simp [Val.plain])

/-- A sequence whose children before the last return normally has the
outcome of its last child. -/
theorem eval_file_snoc (fuel : Nat) (pre : List Node) (last : Node)
    (vs : List Val) (e e1 : Evaluator)
    (hpre : evalSeq (eval fuel) pre e = some (vs, e1)) :
    eval (fuel + 1) (Val.node (Node.file (pre ++ [last]))) e
      = eval fuel (Val.node last) e1 := by
  obtain ⟨y, hy⟩ := fileLoop_evalSeq (eval fuel) (eval_keeps fuel) [last] pre Val.nil vs e e1 hpre
  rw [eval_file, hy, fileLoop_last (eval fuel) (eval_keeps fuel)]

theorem bindArgs_surplus (ev : Val → Evaluator → Res Val) (extra : List Node)
    (args : List String) :
    ∀ (nodes : List Node) (e : Evaluator), args.length ≤ nodes.length →
      bindArgs ev args (nodes ++ extra) e = bindArgs ev args nodes e := by
  induction args with
  | nil =>
    intro nodes e _
    simp [bindArgs]
  | cons a as ih =>
    intro nodes e hlen
    cases nodes with
    | nil => simp at hlen
    | cons n ns =>
      simp only [List.cons_append, bindArgs]
      cases hr : ev (Val.node n) e with
      | timeout => rfl
      | fault t => rfl
      | ok x e1 => exact ih ns _ (by simpa using hlen)

theorem wrapInt_of_inIntRange (x : Int) (h : inIntRange x) : wrapInt x = x := by
  unfold inIntRange intBits at h
  unfold wrapInt intBits
  norm_num at h ⊢
  omega

theorem tmod_nonpos_of_nonpos (a b : Int) (ha : a ≤ 0) : Int.tmod a b ≤ 0 := by
  have h := Int.tmod_nonneg (a := -a) b (by omega)
  have h2 : Int.tmod (-a) b = -(Int.tmod a b) := by
    have e1 := Int.tmod_def (-a) b
    have e2 := Int.tmod_def a b
    rw [Int.neg_tdiv] at e1
    rw [e1, e2]
    ring
  omega

theorem natAbs_tmod_lt (a b : Int) (hb : b ≠ 0) : (Int.tmod a b).natAbs < b.natAbs := by
  cases a with
  | ofNat m =>
    cases b with
    | ofNat n =>
      have hn : 0 < n := by
        rcases Nat.eq_zero_or_pos n with h | h
        · subst h; exact absurd rfl hb
        · exact h
      show (Int.ofNat (m % n)).natAbs < n
      exact Nat.mod_lt _ hn
    | negSucc n =>
      show (Int.ofNat (m % (n + 1))).natAbs < n + 1
      exact Nat.mod_lt _ (Nat.succ_pos n)
  | negSucc m =>
    cases b with
    | ofNat n =>
      have hn : 0 < n := by
        rcases Nat.eq_zero_or_pos n with h | h
        · subst h; exact absurd rfl hb
        · exact h
      show (-Int.ofNat ((m + 1) % n)).natAbs < n
      rw [Int.natAbs_neg]
      exact Nat.mod_lt _ hn
    | negSucc n =>
      show (-Int.ofNat ((m + 1) % (n + 1))).natAbs < n + 1
      rw [Int.natAbs_neg]
      exact Nat.mod_lt _ (Nat.succ_pos n)

theorem tdiv_inIntRange (a b : Int) (ha : inIntRange a) (hb : b ≠ 0)
    (hov : ¬ (a = -(2 ^ (intBits - 1)) ∧ b = -1)) : inIntRange (Int.tdiv a b) := by
  unfold inIntRange intBits at ha ⊢
  unfold intBits at hov
  norm_num at ha hov ⊢
  have h1 : (Int.tdiv a b).natAbs = a.natAbs / b.natAbs := Int.natAbs_tdiv a b
  have hbpos : 0 < b.natAbs := Int.natAbs_pos.mpr hb
  have h2 : a.natAbs / b.natAbs ≤ a.natAbs := Nat.div_le_self _ _
  by_cases hb1 : b.natAbs = 1
  · rcases Int.natAbs_eq b with h | h
    · rw [hb1] at h
      simp only [Nat.cast_one] at h
      subst h
      simp only [Int.tdiv_one]
      exact ha
    · rw [hb1] at h
      simp only [Nat.cast_one] at h
      subst h
      have hneg : Int.tdiv a (-1) = -a := by simp [Int.tdiv_neg]
      rw [hneg]
      have hne : a ≠ -9223372036854775808 := fun h => hov h rfl
      omega
  · have hb2 : 2 ≤ b.natAbs := by omega
    have h3 : a.natAbs / b.natAbs ≤ a.natAbs / 2 := Nat.div_le_div_left hb2 (by norm_num)
    omega

theorem read_self_plus_timeout (x : String) (s : Evaluator)
    (hl : s.scope.Lookup x
      = Val.node (Node.mathExpr "+" [Node.identifier x, Node.number 1])) :
    ∀ fuel : Nat, eval fuel (Val.node (Node.identifier x)) s = Res.timeout := by
  intro fuel
  induction fuel using Nat.strong_induction_on with
  | _ fuel ih =>
    cases fuel with
    | zero => rfl
    | succ k =>
      cases k with
      | zero => rfl
      | succ j =>
        rw [eval_identifier, hl, eval_mathExpr]
        simp only [evalMathExpr, mathFn, evalMathFunc, ih j (by omega)]

theorem read_self_timeout (x : String) (s : Evaluator)
    (hl : s.scope.Lookup x = Val.node (Node.identifier x)) :
    ∀ fuel : Nat, eval fuel (Val.node (Node.identifier x)) s = Res.timeout := by
  intro fuel
  induction fuel with
  | zero => rfl
  | succ k ih => rw [eval_identifier, hl, ih]

/-- Binding parameters to integer literals returns normally and changes
nothing but the scope. -/
theorem bindArgs_literals (fuel : Nat) (ps : List String) :
    ∀ (vs : List Int) (st : Evaluator), ps.length = vs.length →
      ∃ sc : Scope, bindArgs (eval (fuel + 1)) ps (vs.map Node.number) st
        = Res.ok () { st with scope := sc } := by
  induction ps with
  | nil =>
    intro vs st _
    refine ⟨st.scope, ?_⟩
    unfold bindArgs
    rfl
  | cons p rest ih =>
    intro vs st hlen
    cases vs with
    | nil => simp at hlen
    | cons v ws =>
      obtain ⟨sc, hsc⟩ := ih ws { st with scope := st.scope.Insert p (Val.int v) }
        (by simpa using hlen)
      refine ⟨sc, ?_⟩
      simp only [List.map_cons, bindArgs, eval_number]
      exact hsc

/-! ## Theorems -/

/-- C1: for all integers a and b, a comparison of the two literals evaluates,
in any environment and with any depth budget of at least two, to 1 when the
relation named by the operator holds and to 0 otherwise, for each of the six
operators; the environment is left as it was. -/
theorem comparison_of_literals (fuel : Nat) (a b : Int) (e : Evaluator) :
    eval (fuel + 2) (Val.node (Node.compExpr "<" (Node.number a) (Node.number b))) e
        = Res.ok (Val.int (if a < b then 1 else 0)) e
    ∧ eval (fuel + 2) (Val.node (Node.compExpr "<=" (Node.number a) (Node.number b))) e
        = Res.ok (Val.int (if a ≤ b then 1 else 0)) e
    ∧ eval (fuel + 2) (Val.node (Node.compExpr "<>" (Node.number a) (Node.number b))) e
        = Res.ok (Val.int (if a ≠ b then 1 else 0)) e
    ∧ eval (fuel + 2) (Val.node (Node.compExpr ">" (Node.number a) (Node.number b))) e
        = Res.ok (Val.int (if a > b then 1 else 0)) e
    ∧ eval (fuel + 2) (Val.node (Node.compExpr ">=" (Node.number a) (Node.number b))) e
        = Res.ok (Val.int (if a ≥ b then 1 else 0)) e
    ∧ eval (fuel + 2) (Val.node (Node.compExpr "=" (Node.number a) (Node.number b))) e
        = Res.ok (Val.int (if a = b then 1 else 0)) e := by
  refine ⟨?_, ?_, ?_, ?_, ?_, ?_⟩ <;>
    simp [eval_compExpr, eval_number, evalCompExpr, BtoI]

/-- C2: for each of the seven operators and every non-empty list of integer
literals (no zero among the operands after the first when the operator is
division or remainder), the fold evaluates to the left fold of the
operator's binary function over the operands after the first, starting from
the first; the environment is left as it was. -/
theorem math_fold_of_literals (fuel : Nat) (opLit : String) (x : Int)
    (xs : List Int) (e : Evaluator) (hop : opLit ∈ mathOps)
    (hz : opLit = "/" ∨ opLit = "%" → ∀ y ∈ xs, y ≠ 0) :
    eval (fuel + 2) (Val.node (Node.mathExpr opLit ((x :: xs).map Node.number))) e
      = Res.ok (Val.int (xs.foldl (opFn opLit) x)) e := by
  have key : ∀ fn : Int → Int → Option Int, mathFn opLit = some fn →
      (∀ c : Int, ∀ y ∈ xs, fn c y = some (opFn opLit c y)) →
      eval (fuel + 2) (Val.node (Node.mathExpr opLit ((x :: xs).map Node.number))) e
        = Res.ok (Val.int (xs.foldl (opFn opLit) x)) e := by
    intro fn hfn hstep
    have h := evalMathFunc_literals fuel fn (opFn opLit) x xs e hstep
    rw [eval_mathExpr]
    simp only [evalMathExpr, hfn, h]
  simp only [mathOps, List.mem_cons, List.mem_singleton, List.not_mem_nil, or_false] at hop
  rcases hop with h | h | h | h | h | h | h <;> subst h
  · exact key _ rfl (fun c y _ => rfl)
  · exact key _ rfl (fun c y _ => rfl)
  · exact key _ rfl (fun c y _ => rfl)
  · refine key _ rfl (fun c y hy => ?_)
    have := hz (Or.inl rfl) y hy
    simp [opFn, this]
  · refine key _ rfl (fun c y hy => ?_)
    have := hz (Or.inr rfl) y hy
    simp [opFn, this]
  · refine key _ rfl (fun c y _ => ?_)
    by_cases hc : c = 0 <;> by_cases hy : y = 0 <;> simp [opFn, BtoI, ItoB, hc, hy]
  · refine key _ rfl (fun c y _ => ?_)
    by_cases hc : c = 0 <;> by_cases hy : y = 0 <;> simp [opFn, BtoI, ItoB, hc, hy]

/-- Witness of C2: the fold of subtraction over 10, 3, 2 is 5. -/
theorem math_fold_of_literals_witness :
    eval 2 (Val.node (Node.mathExpr "-" ([10, 3, 2].map Node.number))) (initial emptyScope)
      = Res.ok (Val.int 5) (initial emptyScope) :=
  math_fold_of_literals 0 "-" 10 [3, 2] (initial emptyScope) (by decide)
    (by intro h; rcases h with h | h <;> exact absurd h (by decide))

/-- C3: once the test has evaluated to some value, leaving state e1, a
conditional evaluates to exactly the evaluation of its then-branch from e1
when that value is an integer at least 1 (the else-branch is not evaluated);
in every other case (an integer below 1, nil) it evaluates to exactly the
evaluation of the else-branch from e1 when there is one (the then-branch is
not evaluated) and to nil, with the state e1, when there is none. -/
theorem conditional_branches (fuel : Nat) (comp thenN : Node)
    (elseN : Option Node) (e e1 : Evaluator) (v : Val)
    (hc : eval (fuel + 1) (Val.node comp) e = Res.ok v e1) :
    (∀ x : Int, v = Val.int x → x ≥ 1 →
        eval (fuel + 2) (Val.node (Node.ifExpr comp thenN elseN)) e
          = eval (fuel + 1) (Val.node thenN) e1)
    ∧ ((∀ x : Int, v = Val.int x → x < 1) →
        (∀ el : Node, elseN = some el →
          eval (fuel + 2) (Val.node (Node.ifExpr comp thenN elseN)) e
            = eval (fuel + 1) (Val.node el) e1)
        ∧ (elseN = none →
          eval (fuel + 2) (Val.node (Node.ifExpr comp thenN elseN)) e
            = Res.ok Val.nil e1)) := by
  refine ⟨?_, ?_⟩
  · intro x hv hx
    subst hv
    rw [eval_ifExpr]
    simp only [evalIfExpr, hc, hx, if_true]
  · intro hlt
    have key : eval (fuel + 2) (Val.node (Node.ifExpr comp thenN elseN)) e
        = eval (fuel + 1) (optNode elseN) e1 := by
      rw [eval_ifExpr]
      unfold evalIfExpr
      rw [hc]
      cases v with
      | nil => rfl
      | node m => rfl
      | int x =>
        have hx : ¬ x ≥ 1 := not_le.mpr (hlt x rfl)
        simp only [hx, if_false]
    refine ⟨?_, ?_⟩
    · intro el hel
      rw [key, hel]
      rfl
    · intro hel
      rw [key, hel]
      rfl

/-- Witness of C3: with the test -1 the else-branch 2 is the result and the
then-branch, a print, leaves no output. -/
theorem conditional_branches_witness :
    eval 2 (Val.node (Node.number (-1))) (initial emptyScope)
        = Res.ok (Val.int (-1)) (initial emptyScope)
    ∧ eval 3 (Val.node (Node.ifExpr (Node.number (-1))
          (Node.printExpr [Node.number 1]) (some (Node.number 2)))) (initial emptyScope)
        = eval 2 (Val.node (Node.number 2)) (initial emptyScope) :=
  ⟨rfl, ((conditional_branches 1 (Node.number (-1)) (Node.printExpr [Node.number 1])
      (some (Node.number 2)) (initial emptyScope) (initial emptyScope) (Val.int (-1)) rfl).2
      (by intro x hx; cases hx; decide)).1 (Node.number 2) rfl⟩

/-- C4: an assignment returns nil and binds the name to the value node
itself, unevaluated, touching neither output nor error sink; in any later
state where the name is still bound to that node, reading the name is
exactly evaluating the node in that later state; so for distinct names x
and y the sequence x := y, y := a, read x yields a, and after a further
y := b the read of x yields b. -/
theorem assignment_is_late_bound (fuel : Nat) (x y : String) (value : Node)
    (a b : Int) (e e1 : Evaluator) (hxy : x ≠ y)
    (hl : e1.scope.Lookup x = Val.node value) :
    (eval (fuel + 1) (Val.node (Node.setExpr x value)) e
        = Res.ok Val.nil (evalSetExpr x value e)
      ∧ (evalSetExpr x value e).scope.Lookup x = Val.node value
      ∧ (evalSetExpr x value e).out = e.out
      ∧ (evalSetExpr x value e).errors = e.errors)
    ∧ eval (fuel + 1) (Val.node (Node.identifier x)) e1
        = eval fuel (Val.node value) e1
    ∧ eval (fuel + 4) (Val.node (Node.file
          [Node.setExpr x (Node.identifier y), Node.setExpr y (Node.number a),
           Node.identifier x])) e
        = Res.ok (Val.int a)
            (evalSetExpr y (Node.number a) (evalSetExpr x (Node.identifier y) e))
    ∧ eval (fuel + 4) (Val.node (Node.file
          [Node.setExpr x (Node.identifier y), Node.setExpr y (Node.number a),
           Node.setExpr y (Node.number b), Node.identifier x])) e
        = Res.ok (Val.int b)
            (evalSetExpr y (Node.number b)
              (evalSetExpr y (Node.number a) (evalSetExpr x (Node.identifier y) e))) := by
  have hread : ∀ (c : Int) (s : Evaluator),
      s.scope.Lookup x = Val.node (Node.identifier y) →
      eval (fuel + 3) (Val.node (Node.identifier x)) (evalSetExpr y (Node.number c) s)
        = Res.ok (Val.int c) (evalSetExpr y (Node.number c) s) := by
    intro c s hs
    have h1 : (evalSetExpr y (Node.number c) s).scope.Lookup x
        = Val.node (Node.identifier y) := by
      simp only [evalSetExpr]
      rw [Scope.Lookup_Insert_other _ _ _ _ hxy, hs]
    have h2 : (evalSetExpr y (Node.number c) s).scope.Lookup y
        = Val.node (Node.number c) := by
      simp only [evalSetExpr]
      rw [Scope.Lookup_Insert_same]
    rw [eval_identifier, h1, eval_identifier, h2, eval_number]
  have hx : (evalSetExpr x (Node.identifier y) e).scope.Lookup x
      = Val.node (Node.identifier y) := by
    simp only [evalSetExpr]
    rw [Scope.Lookup_Insert_same]
  refine ⟨⟨rfl, ?_, rfl, rfl⟩, ?_, ?_, ?_⟩
  · simp only [evalSetExpr]
    rw [Scope.Lookup_Insert_same]
  · rw [eval_identifier, hl]
  · rw [eval_file]
    simp only [fileLoop, eval_setExpr]
    rw [hread a _ hx]
  · rw [eval_file]
    simp only [fileLoop, eval_setExpr]
    have hx2 : (evalSetExpr y (Node.number a)
        (evalSetExpr x (Node.identifier y) e)).scope.Lookup x
          = Val.node (Node.identifier y) := by
      simp only [evalSetExpr]
      rw [Scope.Lookup_Insert_other _ _ _ _ hxy, Scope.Lookup_Insert_same]
    rw [hread b _ hx2]

/-- Witness of C4: x := y, y := 5, read x yields 5 from the empty root
scope. -/
theorem assignment_is_late_bound_witness :
    eval 4 (Val.node (Node.file
        [Node.setExpr "x" (Node.identifier "y"), Node.setExpr "y" (Node.number 5),
         Node.identifier "x"])) (initial emptyScope)
      = Res.ok (Val.int 5)
          (evalSetExpr "y" (Node.number 5)
            (evalSetExpr "x" (Node.identifier "y") (initial emptyScope))) :=
  (assignment_is_late_bound 0 "x" "y" (Node.number 1) 5 6 (initial emptyScope)
    (evalSetExpr "x" (Node.number 1) (initial emptyScope)) (by decide) rfl).2.2.1

/-- C5: for a call of a defined function whose arguments were bound,
leaving state e1, and a body that splits into expressions that each yield
nil (leaving state e2) followed by the rest: when the rest is empty the call
returns nil; when the rest starts with an expression that yields a value r
other than nil (the integer 0 included), the call returns r and the
expressions after it are not evaluated.  In both cases the final state is
the one left by the last evaluated body expression, with the scope of the
caller restored. -/
theorem call_returns_first_value (fuel : Nat) (name nm : String)
    (args : List String) (nodes pre rest : List Node) (e e1 e2 : Evaluator)
    (hd : e.scope.Lookup name = Val.node (Node.defineExpr nm args (pre ++ rest)))
    (hb : bindArgs (eval fuel) args nodes (openScope e) = Res.ok () e1)
    (hpre : skipNil (eval fuel) pre e1 = some e2) :
    (rest = [] →
        eval (fuel + 1) (Val.node (Node.userExpr name nodes)) e
          = Res.ok Val.nil { e2 with scope := e.scope })
    ∧ (∀ (v : Node) (post : List Node) (r : Val) (e3 : Evaluator),
        rest = v :: post → eval fuel (Val.node v) e2 = Res.ok r e3 → r ≠ Val.nil →
        eval (fuel + 1) (Val.node (Node.userExpr name nodes)) e
          = Res.ok r { e3 with scope := e.scope }) := by
  have hloop := bodyLoop_skipNil (eval fuel) pre rest e1 e2 hpre
  refine ⟨?_, ?_⟩
  · intro hrest
    subst hrest
    rw [eval_userExpr]
    exact evalUserExpr_of_body (eval fuel) (eval_keeps fuel) name nodes e e1 e2 nm args
      (pre ++ []) Val.nil hd hb (by rw [hloop]; rfl)
  · intro v post r e3 hrest hv hr
    subst hrest
    rw [eval_userExpr]
    refine evalUserExpr_of_body (eval fuel) (eval_keeps fuel) name nodes e e1 e3 nm args
      (pre ++ v :: post) r hd hb ?_
    rw [hloop]
    unfold bodyLoop
    rw [hv]
    cases r with
    | nil => exact absurd rfl hr
    | int x => rfl
    | node m => rfl

/-- Witness of C5: the function with body print 1, 0, 7 returns 0, and has
printed one line. -/
theorem call_returns_first_value_witness :
    eval 4 (Val.node (Node.userExpr "f" [])) (initial scopePrintZeroSeven)
      = Res.ok (Val.int 0)
          { errors := [], scope := scopePrintZeroSeven, out := [[Val.int 1]] } :=
  (call_returns_first_value 3 "f" "f" [] [] [Node.printExpr [Node.number 1]]
    [Node.number 0, Node.number 7] (initial scopePrintZeroSeven)
    (openScope (initial scopePrintZeroSeven))
    { errors := [], scope := NewScope scopePrintZeroSeven, out := [[Val.int 1]] }
    rfl rfl rfl).2 (Node.number 0) [Node.number 7] (Val.int 0)
    { errors := [], scope := NewScope scopePrintZeroSeven, out := [[Val.int 1]] }
    rfl rfl (by simp)

/-- C6 (the code at the failing input): the top-level sequence of a read of
the unbound name x followed by the literal 7 records no error, evaluates the
second child and returns 7. -/
theorem unknown_identifier_not_reported :
    eval 3 (Val.node (Node.file [Node.identifier "x", Node.number 7]))
        (initial emptyScope)
      = Res.ok (Val.int 7) { errors := [], scope := emptyScope, out := [] } := by
  rfl

/-- C7: a call that returns normally leaves the scope of the evaluator, that
is the current frame and every enclosing frame with all their bindings,
exactly as it was before the call. -/
theorem call_restores_scope (fuel : Nat) (name : String) (nodes : List Node)
    (e e1 : Evaluator) (r : Val)
    (h : eval fuel (Val.node (Node.userExpr name nodes)) e = Res.ok r e1) :
    e1.scope = e.scope := by
  cases fuel with
  | zero => exact absurd h (by simp [eval])
  | succ k =>
    rw [eval_userExpr] at h
    obtain ⟨nm, args, impl, e2, e3, _, _, _, he⟩ :=
      evalUserExpr_ok_inv (eval k) (eval_keeps k) name nodes e e1 r h
    rw [he]

/-- Witness of C7: after the nested calls the root scope is as before. -/
theorem call_restores_scope_witness :
    eval 8 (Val.node (Node.userExpr "f" [Node.userExpr "g" [Node.number 7]]))
          (initial scopeNested)
        = Res.ok (Val.int 9)
            { errors := [], scope := scopeNested,
              out := [[Val.int 9], [Val.int 9], [Val.int 9]] }
    ∧ scopeNested = (initial scopeNested).scope :=
  ⟨rfl, call_restores_scope 8 "f" [Node.userExpr "g" [Node.number 7]] (initial scopeNested)
      { errors := [], scope := scopeNested, out := [[Val.int 9], [Val.int 9], [Val.int 9]] }
      (Val.int 9) rfl⟩

/-- C8: for every list of at least two integer literals, the fold of and
evaluates to 1 when every operand is nonzero and to 0 otherwise, and the
fold of or evaluates to 1 when some operand is nonzero and to 0 otherwise;
negative operands count as true, so and over -1, 1 is 1. -/
theorem logical_fold_of_literals (fuel : Nat) (x y : Int) (rest : List Int)
    (e : Evaluator) :
    eval (fuel + 2) (Val.node (Node.mathExpr "and" ((x :: y :: rest).map Node.number))) e
        = Res.ok (Val.int (if ∀ z ∈ x :: y :: rest, z ≠ 0 then 1 else 0)) e
    ∧ eval (fuel + 2) (Val.node (Node.mathExpr "or" ((x :: y :: rest).map Node.number))) e
        = Res.ok (Val.int (if ∃ z ∈ x :: y :: rest, z ≠ 0 then 1 else 0)) e
    ∧ eval (fuel + 2) (Val.node (Node.mathExpr "and" [Node.number (-1), Node.number 1])) e
        = Res.ok (Val.int 1) e := by
  have hand : ∀ c : Int, ∀ z ∈ y :: rest,
      (fun a b : Int => some (BtoI (ItoB a && ItoB b))) c z = some (opFn "and" c z) := by
    intro c z _
    by_cases hc : c = 0 <;> by_cases hz : z = 0 <;> simp [opFn, BtoI, ItoB, hc, hz]
  have hor : ∀ c : Int, ∀ z ∈ y :: rest,
      (fun a b : Int => some (BtoI (ItoB a || ItoB b))) c z = some (opFn "or" c z) := by
    intro c z _
    by_cases hc : c = 0 <;> by_cases hz : z = 0 <;> simp [opFn, BtoI, ItoB, hc, hz]
  refine ⟨?_, ?_, rfl⟩
  · rw [eval_mathExpr]
    simp only [evalMathExpr, mathFn]
    rw [evalMathFunc_literals fuel _ (opFn "and") x (y :: rest) e hand, foldl_and]
    simp
  · rw [eval_mathExpr]
    simp only [evalMathExpr, mathFn]
    rw [evalMathFunc_literals fuel _ (opFn "or") x (y :: rest) e hor, foldl_or]
    simp

/-- C9: in a two-operand fold whose first operand x evaluates to the integer
a, leaving state e1, the second operand y is evaluated from e1 whatever a
is: for and with a = 0 and for or with a nonzero, the outcome of the fold is
the outcome of y from e1 (a fault or an exhausted budget of y is the
outcome of the fold; when y returns, the state after the fold is the state
y left), the value being 0 for and, and for or 1 when y yields an integer
and 0 when it does not. -/
theorem logical_fold_no_short_circuit (fuel : Nat) (x y : Node) (a : Int)
    (e e1 : Evaluator) (hx : eval fuel (Val.node x) e = Res.ok (Val.int a) e1) :
    (a = 0 →
        eval (fuel + 1) (Val.node (Node.mathExpr "and" [x, y])) e
          = (match eval fuel (Val.node y) e1 with
            | Res.ok _ e2 => Res.ok (Val.int 0) e2
            | Res.fault e2 => Res.fault e2
            | Res.timeout => Res.timeout))
    ∧ (a ≠ 0 →
        eval (fuel + 1) (Val.node (Node.mathExpr "or" [x, y])) e
          = (match eval fuel (Val.node y) e1 with
            | Res.ok v e2 => Res.ok (Val.int (if v.isInt then 1 else 0)) e2
            | Res.fault e2 => Res.fault e2
            | Res.timeout => Res.timeout)) := by
  refine ⟨?_, ?_⟩
  · intro ha
    subst ha
    rw [eval_mathExpr]
    simp only [evalMathExpr, mathFn, evalMathFunc, mathLoop, hx]
    cases hy : eval fuel (Val.node y) e1 with
    | timeout => rfl
    | fault e2 => rfl
    | ok v e2 =>
      cases v with
      | nil => rfl
      | node m => rfl
      | int b => simp [mathLoop, BtoI, ItoB]
  · intro ha
    rw [eval_mathExpr]
    simp only [evalMathExpr, mathFn, evalMathFunc, mathLoop, hx]
    cases hy : eval fuel (Val.node y) e1 with
    | timeout => rfl
    | fault e2 => rfl
    | ok v e2 =>
      cases v with
      | nil => rfl
      | node m => rfl
      | int b => simp [mathLoop, BtoI, ItoB, ha, Val.isInt]

/-- Witness of C9: and over 0 and a print still prints. -/
theorem logical_fold_no_short_circuit_witness :
    eval 2 (Val.node (Node.number 0)) (initial emptyScope)
        = Res.ok (Val.int 0) (initial emptyScope)
    ∧ eval 3 (Val.node (Node.mathExpr "and"
          [Node.number 0, Node.printExpr [Node.number 1]])) (initial emptyScope)
        = Res.ok (Val.int 0) { errors := [], scope := emptyScope, out := [[Val.int 1]] } :=
  ⟨rfl, ((logical_fold_no_short_circuit 2 (Node.number 0) (Node.printExpr [Node.number 1]) 0
      (initial emptyScope) (initial emptyScope) rfl).1 rfl).trans rfl⟩

/-- C10: a comparison one of whose operands yields a value that is not an
integer returns the integer 0 in the state left by the second operand; a
fold whose operands up to some point yield integers (with no faulting step
among them) and whose next operand yields a value that is not an integer
returns the integer 0 in the state left by that operand, whatever operands
follow; in both cases the error sink is as it was before. -/
theorem non_integer_operand_absorbed (fuel : Nat)
    (lit : String) (a b : Node) (va vb : Val) (e e1 e2 : Evaluator)
    (opLit : String) (fn : Int → Int → Option Int) (pre post : List Node)
    (n : Node) (vs : List Int) (v : Val) (s s1 s2 : Evaluator)
    (ha : eval fuel (Val.node a) e = Res.ok va e1)
    (hb : eval fuel (Val.node b) e1 = Res.ok vb e2)
    (hnon : va.isInt = false ∨ vb.isInt = false)
    (hfn : mathFn opLit = some fn)
    (hpre : evalInts (eval fuel) pre s = some (vs, s1))
    (hstep : ∀ c cs, vs = c :: cs → foldSteps fn c cs ≠ none)
    (hn : eval fuel (Val.node n) s1 = Res.ok v s2)
    (hv : v.isInt = false) :
    (eval (fuel + 1) (Val.node (Node.compExpr lit a b)) e = Res.ok (Val.int 0) e2
      ∧ e2.errors = e.errors)
    ∧ (eval (fuel + 1) (Val.node (Node.mathExpr opLit (pre ++ n :: post))) s
        = Res.ok (Val.int 0) s2
      ∧ s2.errors = s.errors) := by
  have hcomp : eval (fuel + 1) (Val.node (Node.compExpr lit a b)) e
      = Res.ok (Val.int 0) e2 := by
    rw [eval_compExpr]
    simp only [evalCompExpr, ha, hb]
    cases va with
    | nil => rfl
    | node m => rfl
    | int p =>
      cases vb with
      | nil => rfl
      | node m => rfl
      | int q => simp [Val.isInt] at hnon
  have hfold : eval (fuel + 1) (Val.node (Node.mathExpr opLit (pre ++ n :: post))) s
      = Res.ok (Val.int 0) s2 := by
    have hlast : ∀ c : Int, mathLoop (eval fuel) fn c (n :: post) s1 = Res.ok 0 s2 := by
      intro c
      unfold mathLoop
      rw [hn]
      cases v with
      | nil => rfl
      | node m => rfl
      | int q => simp [Val.isInt] at hv
    rw [eval_mathExpr]
    simp only [evalMathExpr, hfn]
    cases pre with
    | nil =>
      simp only [evalInts, Option.some.injEq, Prod.mk.injEq] at hpre
      obtain ⟨_, hs⟩ := hpre
      subst hs
      simp only [List.nil_append, evalMathFunc, hn]
      cases v with
      | nil => rfl
      | node m => rfl
      | int q => simp [Val.isInt] at hv
    | cons p ps =>
      unfold evalInts at hpre
      split at hpre
      · rename_i c0 s0 hp
        split at hpre
        · rename_i ws s3 hps
          simp only [Option.some.injEq, Prod.mk.injEq] at hpre
          obtain ⟨hvs, hs⟩ := hpre
          subst hs
          have hne := hstep c0 ws hvs.symm
          cases hfs : foldSteps fn c0 ws with
          | none => exact absurd hfs hne
          | some c =>
            simp only [List.cons_append, evalMathFunc, hp]
            rw [mathLoop_evalInts (eval fuel) fn ps (n :: post) c0 c ws s0 s3 hps hfs,
              hlast c]
        · exact absurd hpre (by simp)
      · exact absurd hpre (by simp)
  have k1 := eval_keeps (fuel + 1) (Val.node (Node.compExpr lit a b)) e
  rw [hcomp] at k1
  have k2 := eval_keeps (fuel + 1) (Val.node (Node.mathExpr opLit (pre ++ n :: post))) s
  rw [hfold] at k2
  exact ⟨⟨hcomp, k1.2.1⟩, ⟨hfold, k2.2.1⟩⟩

/-- Witness of C10: the comparison of an unbound name with 1 is 0, and the
sum of 1, 2, a print and a division by zero is 0 with the print done and
the division never evaluated. -/
theorem non_integer_operand_absorbed_witness :
    (eval 3 (Val.node (Node.compExpr "<" (Node.identifier "u") (Node.number 1)))
          (initial emptyScope)
        = Res.ok (Val.int 0) (initial emptyScope)
      ∧ (initial emptyScope).errors = (initial emptyScope).errors)
    ∧ (eval 3 (Val.node (Node.mathExpr "+"
          ([Node.number 1, Node.number 2] ++ Node.printExpr [Node.number 3]
            :: [Node.mathExpr "/" [Node.number 1, Node.number 0]]))) (initial emptyScope)
        = Res.ok (Val.int 0) { errors := [], scope := emptyScope, out := [[Val.int 3]] }
      ∧ ({ errors := [], scope := emptyScope, out := [[Val.int 3]] } : Evaluator).errors
          = (initial emptyScope).errors) :=
  non_integer_operand_absorbed 2 "<" (Node.identifier "u") (Node.number 1) Val.nil
    (Val.int 1) (initial emptyScope) (initial emptyScope) (initial emptyScope)
    "+" (fun a b => some (wrapInt (a + b))) [Node.number 1, Node.number 2]
    [Node.mathExpr "/" [Node.number 1, Node.number 0]] (Node.printExpr [Node.number 3])
    [1, 2] Val.nil (initial emptyScope) (initial emptyScope)
    { errors := [], scope := emptyScope, out := [[Val.int 3]] }
    rfl rfl (Or.inl rfl) rfl rfl (by intro c cs h; cases h; simp [foldSteps]) rfl rfl

/-- C11: the parameters of a call are bound one after the other in the new
frame.  From any state, when an argument yields x the parameter is inserted
under its name in the current frame before the remaining arguments are
bound, so they see x under that name.  In a call, once the parameters before
the i-th are bound, leaving state c1 whose current frame is the frame opened
on the scope of the call site, the i-th argument is evaluated from c1 and
its parameter is inserted before the arguments after it are bound.  So a
function with any number of parameters followed by p, q and with body q,
called with integer literals for the first ones and then v and a read of p,
returns v whatever the caller binds p to, and leaves the state of the
caller as it was. -/
theorem parameters_bound_sequentially (fuel : Nat) (name nm p q a b : String)
    (v : Int) (ps rest apre apost : List String) (vs : List Int) (n m : Node)
    (ns pre post : List Node) (x : Val) (e s s1 c c1 : Evaluator)
    (hd : e.scope.Lookup name
      = Val.node (Node.defineExpr nm (ps ++ [p, q]) [Node.identifier q]))
    (hps : ps.length = vs.length)
    (hn : eval fuel (Val.node n) s = Res.ok x s1)
    (hlen : apre.length = pre.length)
    (hpre : bindArgs (eval fuel) apre pre (openScope c) = Res.ok () c1) :
    (bindArgs (eval fuel) (a :: rest) (n :: ns) s
        = bindArgs (eval fuel) rest ns { s1 with scope := s1.scope.Insert a x }
      ∧ (s1.scope.Insert a x).Lookup a = x)
    ∧ (bindArgs (eval fuel) (apre ++ b :: apost) (pre ++ m :: post) (openScope c)
        = (match eval fuel (Val.node m) c1 with
          | Res.ok y c2 =>
            bindArgs (eval fuel) apost post { c2 with scope := c2.scope.Insert b y }
          | Res.fault t => Res.fault t
          | Res.timeout => Res.timeout)
      ∧ c1.scope.outer = c.scope.table :: c.scope.outer)
    ∧ eval (fuel + 3) (Val.node (Node.userExpr name
          (vs.map Node.number ++ [Node.number v, Node.identifier p]))) e
        = Res.ok (Val.int v) e := by
  refine ⟨⟨?_, Scope.Lookup_Insert_same _ _ _⟩, ⟨?_, ?_⟩, ?_⟩
  · simp only [bindArgs, hn]
  · rw [bindArgs_append (eval fuel) (b :: apost) (m :: post) apre pre _ c1 hlen hpre]
    cases hm : eval fuel (Val.node m) c1 <;> simp only [bindArgs, hm]
  · have hk := bindArgs_keeps (eval fuel) (eval_keeps fuel) apre pre (openScope c)
    rw [hpre] at hk
    exact hk.1
  · obtain ⟨sc, hsc⟩ := bindArgs_literals (fuel + 1) ps vs (openScope e) hps
    have hb : bindArgs (eval (fuel + 2)) (ps ++ [p, q])
          (vs.map Node.number ++ [Node.number v, Node.identifier p]) (openScope e)
        = Res.ok () { openScope e with
            scope := (sc.Insert p (Val.int v)).Insert q (Val.int v) } := by
      rw [bindArgs_append (eval (fuel + 2)) [p, q] [Node.number v, Node.identifier p] ps
        (vs.map Node.number) (openScope e) _ (by simpa using hps) hsc]
      simp only [bindArgs, eval_number, eval_identifier,
        Scope.Lookup_Insert_same, eval_int]
    have hr : bodyLoop (eval (fuel + 2)) [Node.identifier q]
          { openScope e with scope := (sc.Insert p (Val.int v)).Insert q (Val.int v) }
        = Res.ok (Val.int v) { openScope e with
            scope := (sc.Insert p (Val.int v)).Insert q (Val.int v) } := by
      simp only [bodyLoop, eval_identifier, Scope.Lookup_Insert_same, eval_int]
    rw [eval_userExpr,
      evalUserExpr_of_body (eval (fuel + 2)) (eval_keeps (fuel + 2)) name _ e _ _ nm
        (ps ++ [p, q]) [Node.identifier q] (Val.int v) hd hb hr]
    rfl

/-- Witness of C11: with a bound to 1 in the caller, f with parameters a, b
and body b, called with 2 and a read of a, returns 2; and h with parameters
c, a, b and body b, called with 5, 2 and a read of a, returns 2. -/
theorem parameters_bound_sequentially_witness :
    (initial scopeSequential).scope.Lookup "a" = Val.node (Node.number 1)
    ∧ eval 4 (Val.node (Node.userExpr "f" [Node.number 2, Node.identifier "a"]))
        (initial scopeSequential)
      = Res.ok (Val.int 2) (initial scopeSequential)
    ∧ eval 4 (Val.node (Node.userExpr "h"
        [Node.number 5, Node.number 2, Node.identifier "a"])) (initial scopeSequential)
      = Res.ok (Val.int 2) (initial scopeSequential) :=
  ⟨rfl,
    (parameters_bound_sequentially 1 "f" "f" "a" "b" "a" "b" 2 [] ["b"] ["a"] [] []
      (Node.number 2) (Node.identifier "a") [Node.identifier "a"] [Node.number 2] []
      (Val.int 2) (initial scopeSequential) (initial scopeSequential)
      (initial scopeSequential) (initial scopeSequential)
      { openScope (initial scopeSequential) with
        scope := (NewScope scopeSequential).Insert "a" (Val.int 2) }
      rfl rfl rfl rfl rfl).2.2,
    (parameters_bound_sequentially 1 "h" "h" "a" "b" "c" "a" 2 ["c"] ["a", "b"] ["c"]
      ["b"] [5] (Node.number 5) (Node.number 2) [Node.number 2, Node.identifier "a"]
      [Node.number 5] [Node.identifier "a"] (Val.int 5)
      (initial scopeSequential) (openScope (initial scopeSequential))
      (openScope (initial scopeSequential)) (initial scopeSequential)
      { openScope (initial scopeSequential) with
        scope := (NewScope scopeSequential).Insert "c" (Val.int 5) }
      rfl rfl rfl rfl rfl).2.2⟩

/-- C12: the frame opened for a call has the scope of the call site as its
parent, and every name resolves in it as at the call site; so with g
defined without parameter and with body z, and f defined with parameter z
and a call of g as body, the call of f on v returns v, whether or not z is
bound where g was defined, and leaves the state of the caller as it was. -/
theorem call_frame_parent_is_call_site (fuel : Nat) (f g z nf ng : String)
    (v : Int) (e : Evaluator) (hgz : g ≠ z)
    (hf : e.scope.Lookup f = Val.node (Node.defineExpr nf [z] [Node.userExpr g []]))
    (hg : e.scope.Lookup g = Val.node (Node.defineExpr ng [] [Node.identifier z])) :
    (openScope e).scope.Parent = some e.scope
    ∧ (∀ name : String, (openScope e).scope.Lookup name = e.scope.Lookup name)
    ∧ eval (fuel + 4) (Val.node (Node.userExpr f [Node.number v])) e
        = Res.ok (Val.int v) e := by
  refine ⟨rfl, fun name => Scope.Lookup_NewScope e.scope name, ?_⟩
  have hb : bindArgs (eval (fuel + 3)) [z] [Node.number v] (openScope e)
      = Res.ok () { openScope e with scope := (NewScope e.scope).Insert z (Val.int v) } := by
    simp only [bindArgs, eval_number, openScope]
  have hg1 : ((NewScope e.scope).Insert z (Val.int v)).Lookup g
      = Val.node (Node.defineExpr ng [] [Node.identifier z]) := by
    rw [Scope.Lookup_Insert_other _ _ _ _ hgz, Scope.Lookup_NewScope, hg]
  have hz : (NewScope ((NewScope e.scope).Insert z (Val.int v))).Lookup z = Val.int v := by
    rw [Scope.Lookup_NewScope, Scope.Lookup_Insert_same]
  have hinner : eval (fuel + 3) (Val.node (Node.userExpr g []))
        { openScope e with scope := (NewScope e.scope).Insert z (Val.int v) }
      = Res.ok (Val.int v)
        { openScope e with scope := (NewScope e.scope).Insert z (Val.int v) } := by
    have hb2 : bindArgs (eval (fuel + 2)) [] []
          (openScope { openScope e with scope := (NewScope e.scope).Insert z (Val.int v) })
        = Res.ok ()
          (openScope { openScope e with scope := (NewScope e.scope).Insert z (Val.int v) }) := by
      simp only [bindArgs]
    have hr2 : bodyLoop (eval (fuel + 2)) [Node.identifier z]
          (openScope { openScope e with scope := (NewScope e.scope).Insert z (Val.int v) })
        = Res.ok (Val.int v)
          (openScope { openScope e with scope := (NewScope e.scope).Insert z (Val.int v) }) := by
      simp only [bodyLoop, eval_identifier, openScope, hz, eval_int]
    rw [eval_userExpr,
      evalUserExpr_of_body (eval (fuel + 2)) (eval_keeps (fuel + 2)) g [] _ _ _ ng
        [] [Node.identifier z] (Val.int v) hg1 hb2 hr2]
    rfl
  have hr : bodyLoop (eval (fuel + 3)) [Node.userExpr g []]
        { openScope e with scope := (NewScope e.scope).Insert z (Val.int v) }
      = Res.ok (Val.int v)
        { openScope e with scope := (NewScope e.scope).Insert z (Val.int v) } := by
    simp only [bodyLoop, hinner]
  rw [eval_userExpr,
    evalUserExpr_of_body (eval (fuel + 3)) (eval_keeps (fuel + 3)) f _ e _ _ nf
      [z] [Node.userExpr g []] (Val.int v) hf hb hr]
  rfl

/-- Witness of C12: z is bound nowhere in the root scope, and the call of f
on 7 returns 7 through the body of g. -/
theorem call_frame_parent_is_call_site_witness :
    (initial scopeDynamic).scope.Lookup "z" = Val.nil
    ∧ eval 4 (Val.node (Node.userExpr "f" [Node.number 7])) (initial scopeDynamic)
      = Res.ok (Val.int 7) (initial scopeDynamic) :=
  ⟨rfl, (call_frame_parent_is_call_site 0 "f" "g" "z" "f" "g" 7 (initial scopeDynamic)
    (by decide) rfl rfl).2.2⟩

/-- C13: a fold of division or remainder whose operands yield integers up to
and including an operand after the first that yields 0 faults: it returns
no value and the error sink is as before; when no earlier divisor is 0 the
fault happens in the state left by that operand; and every evaluation that
reaches the fold (an enclosing operand, test, branch, argument, function
body, sequence, or a read of a name bound to it) faults too, with its error
sink as before. -/
theorem division_by_zero_aborts (fuel : Nat) (opLit : String) (p n : Node)
    (ps post : List Node) (c : Int) (cs : List Int) (e e1 e2 : Evaluator)
    (hop : opLit = "/" ∨ opLit = "%")
    (hpre : evalInts (eval fuel) (p :: ps) e = some (c :: cs, e1))
    (hn : eval fuel (Val.node n) e1 = Res.ok (Val.int 0) e2) :
    (∃ t : Evaluator,
        eval (fuel + 1) (Val.node (Node.mathExpr opLit (p :: ps ++ n :: post))) e
          = Res.fault t ∧ t.errors = e.errors)
    ∧ ((∀ d ∈ cs, d ≠ 0) →
        eval (fuel + 1) (Val.node (Node.mathExpr opLit (p :: ps ++ n :: post))) e
          = Res.fault e2)
    ∧ (∀ (k : Nat) (m : Val) (s : Evaluator),
        Reaches k m s (fuel + 1)
          (Val.node (Node.mathExpr opLit (p :: ps ++ n :: post))) e →
        ∃ t : Evaluator, eval k m s = Res.fault t ∧ t.errors = s.errors) := by
  obtain ⟨fn, hfn, hzero, hnz⟩ : ∃ fn : Int → Int → Option Int,
      mathFn opLit = some fn ∧ (∀ a : Int, fn a 0 = none)
        ∧ (∀ a b : Int, b ≠ 0 → fn a b ≠ none) := by
    rcases hop with h | h <;> subst h
    · exact ⟨_, rfl, fun a => by simp, fun a b hb => by simp [hb]⟩
    · exact ⟨_, rfl, fun a => by simp, fun a b hb => by simp [hb]⟩
  have hlast : ∀ acc : Int,
      mathLoop (eval fuel) fn acc (n :: post) e1 = Res.fault e2 := by
    intro acc
    simp only [mathLoop, hn, hzero]
  have hhead : ∃ s0 : Evaluator,
      eval fuel (Val.node p) e = Res.ok (Val.int c) s0
        ∧ evalInts (eval fuel) ps s0 = some (cs, e1) := by
    unfold evalInts at hpre
    split at hpre
    · rename_i c0 s0 hp
      split at hpre
      · rename_i ws s3 hps
        simp only [Option.some.injEq, Prod.mk.injEq, List.cons.injEq] at hpre
        obtain ⟨⟨hc, hws⟩, hs⟩ := hpre
        subst hc
        subst hws
        subst hs
        exact ⟨s0, hp, hps⟩
      · exact absurd hpre (by simp)
    · exact absurd hpre (by simp)
  obtain ⟨s0, hp, hps⟩ := hhead
  have hexact : foldSteps fn c cs ≠ none →
      eval (fuel + 1) (Val.node (Node.mathExpr opLit (p :: ps ++ n :: post))) e
        = Res.fault e2 := by
    intro hne
    cases hfs : foldSteps fn c cs with
    | none => exact absurd hfs hne
    | some acc =>
      rw [eval_mathExpr]
      simp only [evalMathExpr, hfn, List.cons_append, evalMathFunc, hp]
      rw [mathLoop_evalInts (eval fuel) fn ps (n :: post) c acc cs s0 e1 hps hfs, hlast acc]
  have hfault : ∃ t : Evaluator,
      eval (fuel + 1) (Val.node (Node.mathExpr opLit (p :: ps ++ n :: post))) e
        = Res.fault t := by
    cases hfs : foldSteps fn c cs with
    | some acc => exact ⟨e2, hexact (by rw [hfs]; simp)⟩
    | none =>
      obtain ⟨t, ht⟩ :=
        mathLoop_evalInts_none (eval fuel) fn (n :: post) ps c cs s0 e1 hps hfs
      refine ⟨t, ?_⟩
      rw [eval_mathExpr]
      simp only [evalMathExpr, hfn, List.cons_append, evalMathFunc, hp, ht]
  obtain ⟨t, ht⟩ := hfault
  have hkeep : ∀ (k : Nat) (m : Val) (s : Evaluator),
      eval k m s = Res.fault t → t.errors = s.errors := by
    intro k m s h
    have hk := eval_keeps k m s
    rw [h] at hk
    exact hk
  refine ⟨⟨t, ht, hkeep _ _ _ ht⟩, ?_, ?_⟩
  · intro hcs
    exact hexact (foldSteps_of_nonzero fn hnz cs c hcs)
  · intro k m s hreach
    have h := Reaches.fault hreach t ht
    exact ⟨t, h, hkeep _ _ _ h⟩

/-- Witness of C13: the sequence of an assignment and a print of the quotient
of 6, 3 and 0 and a further print faults, with nothing recorded. -/
theorem division_by_zero_aborts_witness :
    ∃ t : Evaluator,
      eval 5 (Val.node (Node.file
        [Node.setExpr "x" (Node.number 1),
         Node.printExpr [Node.mathExpr "/"
            [Node.number 6, Node.number 3, Node.number 0, Node.printExpr [Node.number 9]]],
         Node.printExpr [Node.number 8]])) (initial emptyScope) = Res.fault t
      ∧ t.errors = (initial emptyScope).errors :=
  (division_by_zero_aborts 2 "/" (Node.number 6) (Node.number 0) [Node.number 3]
    [Node.printExpr [Node.number 9]] 6 [3]
    (evalSetExpr "x" (Node.number 1) (initial emptyScope))
    (evalSetExpr "x" (Node.number 1) (initial emptyScope))
    (evalSetExpr "x" (Node.number 1) (initial emptyScope))
    (Or.inl rfl) rfl rfl).2.2 5 _ (initial emptyScope)
    (@Reaches.child _ _ [Node.setExpr "x" (Node.number 1)]
      [Node.printExpr [Node.number 8]] _ Val.nil _
      (evalSetExpr "x" (Node.number 1) (initial emptyScope)) _ _ rfl
      (@Reaches.printed _ _ [] [] _ [] _
        (evalSetExpr "x" (Node.number 1) (initial emptyScope)) _ _ rfl
        (Reaches.here _ _ _)))

/-- C14: the children of a top-level sequence are evaluated in order, each
from the state the one before it left: when the children before the last
return normally, leaving state e1, and the last child yields v from e1, the
sequence yields v (nil included) in the state the last child left; a
binding made by a child is seen by the next one, the sequence of x := value
and a read of x being the evaluation of value after the assignment; and the
empty sequence yields nil. -/
theorem sequence_returns_last_child (fuel : Nat) (pre : List Node) (last : Node)
    (vs : List Val) (v : Val) (x : String) (value : Node) (e e1 e2 s : Evaluator)
    (hpre : evalSeq (eval fuel) pre e = some (vs, e1))
    (hlast : eval fuel (Val.node last) e1 = Res.ok v e2) :
    eval (fuel + 1) (Val.node (Node.file (pre ++ [last]))) e = Res.ok v e2
    ∧ eval (fuel + 2) (Val.node (Node.file [Node.setExpr x value, Node.identifier x])) s
        = eval fuel (Val.node value) (evalSetExpr x value s)
    ∧ eval (fuel + 1) (Val.node (Node.file [])) e = Res.ok Val.nil e := by
  refine ⟨?_, ?_, rfl⟩
  · rw [eval_file_snoc fuel pre last vs e e1 hpre, hlast]
  · have h := eval_file_snoc (fuel + 1) [Node.setExpr x value] (Node.identifier x)
      [Val.nil] s (evalSetExpr x value s) rfl
    simp only [List.cons_append, List.nil_append] at h
    rw [h, eval_identifier]
    simp only [evalSetExpr, Scope.Lookup_Insert_same]

/-- Witness of C14: the sequence 5, x := 7, read x yields 7, the value the
second child bound. -/
theorem sequence_returns_last_child_witness :
    eval 4 (Val.node (Node.file ([Node.number 5, Node.setExpr "x" (Node.number 7)]
        ++ [Node.identifier "x"]))) (initial emptyScope)
      = Res.ok (Val.int 7) (evalSetExpr "x" (Node.number 7) (initial emptyScope)) :=
  (sequence_returns_last_child 3 [Node.number 5, Node.setExpr "x" (Node.number 7)]
    (Node.identifier "x") [Val.int 5, Val.nil] (Val.int 7) "x" (Node.number 7)
    (initial emptyScope) (evalSetExpr "x" (Node.number 7) (initial emptyScope))
    (evalSetExpr "x" (Node.number 7) (initial emptyScope)) (initial emptyScope)
    rfl rfl).1

/-- C15 (counterexample): the sequence of the literal 5 and the assignment
x := 1 yields nil, not 5. -/
theorem sequence_last_value_counterexample :
    eval 3 (Val.node (Node.file [Node.number 5, Node.setExpr "x" (Node.number 1)]))
        (initial emptyScope)
      = Res.ok Val.nil (evalSetExpr "x" (Node.number 1) (initial emptyScope))
    ∧ eval 3 (Val.node (Node.file [Node.number 5, Node.setExpr "x" (Node.number 1)]))
        (initial emptyScope)
      ≠ Res.ok (Val.int 5) (evalSetExpr "x" (Node.number 1) (initial emptyScope)) := by
  refine ⟨rfl, ?_⟩
  intro h
  have h2 : eval 3 (Val.node (Node.file [Node.number 5, Node.setExpr "x" (Node.number 1)]))
      (initial emptyScope)
      = Res.ok Val.nil (evalSetExpr "x" (Node.number 1) (initial emptyScope)) := rfl
  rw [h2] at h
  simp at h

/-- C15 (amended): when the children of a top-level sequence before the last
return normally, whatever values they yield, and the last child is an
assignment, a definition, a print whose operands return, or any child that
yields nil, the sequence yields nil. -/
theorem sequence_nil_when_last_nil (fuel : Nat) (pre nodes impl : List Node)
    (last value : Node) (vs xs : List Val) (x name : String) (args : List String)
    (e e1 e2 e3 : Evaluator)
    (hpre : evalSeq (eval (fuel + 1)) pre e = some (vs, e1))
    (hprint : printArgs (eval fuel) nodes e1 = Res.ok xs e2)
    (hlast : eval (fuel + 1) (Val.node last) e1 = Res.ok Val.nil e3) :
    eval (fuel + 2) (Val.node (Node.file (pre ++ [Node.setExpr x value]))) e
        = Res.ok Val.nil (evalSetExpr x value e1)
    ∧ eval (fuel + 2) (Val.node (Node.file (pre ++ [Node.defineExpr name args impl]))) e
        = Res.ok Val.nil (evalDefineExpr name args impl e1)
    ∧ eval (fuel + 2) (Val.node (Node.file (pre ++ [Node.printExpr nodes]))) e
        = Res.ok Val.nil { e2 with out := e2.out ++ [xs] }
    ∧ eval (fuel + 2) (Val.node (Node.file (pre ++ [last]))) e = Res.ok Val.nil e3 := by
  refine ⟨?_, ?_, ?_, ?_⟩
  · rw [eval_file_snoc (fuel + 1) pre _ vs e e1 hpre, eval_setExpr]
  · rw [eval_file_snoc (fuel + 1) pre _ vs e e1 hpre, eval_defineExpr]
  · rw [eval_file_snoc (fuel + 1) pre _ vs e e1 hpre, eval_printExpr]
    simp only [evalPrintExpr, hprint]
  · rw [eval_file_snoc (fuel + 1) pre _ vs e e1 hpre, hlast]

/-- Witness of C15 (amended): the sequence 5, x := 1 yields nil. -/
theorem sequence_nil_when_last_nil_witness :
    eval 3 (Val.node (Node.file ([Node.number 5] ++ [Node.setExpr "x" (Node.number 1)])))
        (initial emptyScope)
      = Res.ok Val.nil (evalSetExpr "x" (Node.number 1) (initial emptyScope)) :=
  (sequence_nil_when_last_nil 1 [Node.number 5] [Node.number 2] []
    (Node.printExpr []) (Node.number 1) [Val.int 5] [Val.int 2] "x" "f" []
    (initial emptyScope) (initial emptyScope) (initial emptyScope)
    { errors := [], scope := emptyScope, out := [[]] } rfl rfl rfl).1

/-- C16: whatever the node, the state and the budget, a value returned by
`eval` is nil or an integer, never a syntax node and so never an identifier
node (the guard of the unknown-identifier branch of the sequence loop never
holds), and the error sink after a normal return or a fault is the error
sink before. -/
theorem eval_returns_integer_or_nil (fuel k : Nat) (n m : Val) (v : Val)
    (e e1 s t : Evaluator) (h : eval fuel n e = Res.ok v e1)
    (hf : eval k m s = Res.fault t) :
    (v = Val.nil ∨ ∃ x : Int, v = Val.int x)
    ∧ (∀ lit : String, v ≠ Val.node (Node.identifier lit))
    ∧ e1.errors = e.errors
    ∧ t.errors = s.errors := by
  have hk := eval_keeps fuel n e
  rw [h] at hk
  have hk2 := eval_keeps k m s
  rw [hf] at hk2
  refine ⟨?_, ?_, hk.2.1, hk2⟩
  · cases v with
    | nil => exact Or.inl rfl
    | int x => exact Or.inr ⟨x, rfl⟩
    | node w => exact absurd hk.2.2 (by simp [Val.plain])
  · intro lit hv
    subst hv
    exact absurd hk.2.2 (by simp [Val.plain])

/-- Witness of C16: a read of an unbound name yields nil and records
nothing; a division by zero faults and records nothing. -/
theorem eval_returns_integer_or_nil_witness :
    (eval 2 (Val.node (Node.identifier "x")) (initial emptyScope)
        = Res.ok Val.nil (initial emptyScope)
      ∧ eval 2 (Val.node (Node.mathExpr "/" [Node.number 1, Node.number 0]))
          (initial emptyScope) = Res.fault (initial emptyScope))
    ∧ ((Val.nil = Val.nil ∨ ∃ x : Int, Val.nil = Val.int x)
      ∧ (∀ lit : String, Val.nil ≠ Val.node (Node.identifier lit))
      ∧ (initial emptyScope).errors = (initial emptyScope).errors
      ∧ (initial emptyScope).errors = (initial emptyScope).errors) :=
  ⟨⟨rfl, rfl⟩, eval_returns_integer_or_nil 2 2 (Val.node (Node.identifier "x"))
    (Val.node (Node.mathExpr "/" [Node.number 1, Node.number 0])) Val.nil
    (initial emptyScope) (initial emptyScope) (initial emptyScope) (initial emptyScope)
    rfl rfl⟩

/-- C17: for each of the seven operators, a fold over a single operand that
yields the integer v yields v itself, in the state the operand left: the
binary function is not applied. -/
theorem single_operand_fold (fuel : Nat) (opLit : String) (n : Node) (v : Int)
    (e e1 : Evaluator) (hop : opLit ∈ mathOps)
    (hn : eval fuel (Val.node n) e = Res.ok (Val.int v) e1) :
    eval (fuel + 1) (Val.node (Node.mathExpr opLit [n])) e = Res.ok (Val.int v) e1 := by
  simp only [mathOps, List.mem_cons, List.mem_singleton, List.not_mem_nil, or_false] at hop
  rw [eval_mathExpr]
  rcases hop with h | h | h | h | h | h | h <;> subst h <;>
    simp only [evalMathExpr, mathFn, evalMathFunc, hn, mathLoop]

/-- Witness of C17: and over the single operand 5 is 5, and subtraction over
the single operand 5 is 5. -/
theorem single_operand_fold_witness :
    eval 2 (Val.node (Node.mathExpr "and" [Node.number 5])) (initial emptyScope)
        = Res.ok (Val.int 5) (initial emptyScope)
    ∧ eval 2 (Val.node (Node.mathExpr "-" [Node.number 5])) (initial emptyScope)
        = Res.ok (Val.int 5) (initial emptyScope) :=
  ⟨single_operand_fold 1 "and" (Node.number 5) 5 (initial emptyScope) (initial emptyScope)
      (by decide) rfl,
    rfl⟩

/-- C18: when a call of a defined function supplies at least as many
arguments as the function has parameters, the arguments after them do not
matter: the call with further arguments appended has the outcome (value,
output, final state, fault or exhausted budget alike) of the call without
them. -/
theorem surplus_arguments_ignored (fuel : Nat) (name nm : String)
    (args : List String) (impl nodes extra : List Node) (e : Evaluator)
    (hd : e.scope.Lookup name = Val.node (Node.defineExpr nm args impl))
    (hlen : args.length ≤ nodes.length) :
    eval (fuel + 1) (Val.node (Node.userExpr name (nodes ++ extra))) e
      = eval (fuel + 1) (Val.node (Node.userExpr name nodes)) e := by
  rw [eval_userExpr, eval_userExpr]
  unfold evalUserExpr
  simp only [hd]
  rw [bindArgs_surplus (eval fuel) extra args nodes (openScope e) hlen]

/-- Witness of C18: the call of the one-parameter function on 3, followed by
a division by zero and a print as surplus arguments, returns 3 with nothing
printed. -/
theorem surplus_arguments_ignored_witness :
    eval 3 (Val.node (Node.userExpr "f" ([Node.number 3]
        ++ [Node.mathExpr "/" [Node.number 1, Node.number 0],
            Node.printExpr [Node.number 9]]))) (initial scopeIdentity)
      = Res.ok (Val.int 3) (initial scopeIdentity) :=
  (surplus_arguments_ignored 2 "f" "f" ["a"] [Node.identifier "a"] [Node.number 3]
    [Node.mathExpr "/" [Node.number 1, Node.number 0], Node.printExpr [Node.number 9]]
    (initial scopeIdentity) rfl (by decide)).trans rfl

/-- C19: for an integer a of the machine range and a nonzero integer b, other
than the overflowing pair of the least integer and -1, the fold of division
over a, b yields the quotient q and the fold of remainder yields r with
q * b + r = a, the absolute value of r below that of b, r of the sign of a
(or zero), and q truncated toward zero: its absolute value is the floor of
the quotient of the absolute values, and it is positive only when a and b
have the same sign, negative only when they have opposite signs; -7 by 2
gives -3 and -1. -/
theorem division_truncates_toward_zero (fuel : Nat) (a b : Int) (e : Evaluator)
    (ha : inIntRange a) (hb : b ≠ 0)
    (hov : ¬ (a = -(2 ^ (intBits - 1)) ∧ b = -1)) :
    ∃ q r : Int,
      eval (fuel + 2) (Val.node (Node.mathExpr "/" [Node.number a, Node.number b])) e
          = Res.ok (Val.int q) e
      ∧ eval (fuel + 2) (Val.node (Node.mathExpr "%" [Node.number a, Node.number b])) e
          = Res.ok (Val.int r) e
      ∧ q * b + r = a
      ∧ r.natAbs < b.natAbs
      ∧ (0 ≤ a → 0 ≤ r) ∧ (a ≤ 0 → r ≤ 0)
      ∧ q.natAbs = a.natAbs / b.natAbs
      ∧ (0 < q → 0 < a * b) ∧ (q < 0 → a * b < 0)
      ∧ eval (fuel + 2) (Val.node (Node.mathExpr "/" [Node.number (-7), Node.number 2])) e
          = Res.ok (Val.int (-3)) e
      ∧ eval (fuel + 2) (Val.node (Node.mathExpr "%" [Node.number (-7), Node.number 2])) e
          = Res.ok (Val.int (-1)) e := by
  have hq := wrapInt_of_inIntRange _ (tdiv_inIntRange a b ha hb hov)
  have hid : Int.tdiv a b * b + Int.tmod a b = a := Int.tdiv_add_tmod' a b
  have hr0 : 0 ≤ a → 0 ≤ Int.tmod a b := Int.tmod_nonneg b
  have hr1 : a ≤ 0 → Int.tmod a b ≤ 0 := tmod_nonpos_of_nonpos a b
  have hlt : (Int.tmod a b).natAbs < b.natAbs := natAbs_tmod_lt a b hb
  refine ⟨Int.tdiv a b, Int.tmod a b, ?_, ?_, hid, hlt, hr0, hr1, Int.natAbs_tdiv a b,
    ?_, ?_, ?_, ?_⟩
  · rw [eval_mathExpr]
    simp only [evalMathExpr, mathFn, evalMathFunc, mathLoop, eval_number, hb, if_false, hq]
  · rw [eval_mathExpr]
    simp only [evalMathExpr, mathFn, evalMathFunc, mathLoop, eval_number, hb, if_false]
  · intro hpos
    by_contra hab
    have hab2 : a * b ≤ 0 := not_lt.mp hab
    rcases le_or_lt 0 a with h0 | h0
    · have hb0 : b ≤ 0 := by
        by_contra hbp
        have : 0 < b := not_le.mp hbp
        rcases eq_or_lt_of_le h0 with h | h
        · rw [← h] at hpos; simp at hpos
        · have := mul_pos h this
          omega
      have := Int.tdiv_nonpos h0 hb0
      omega
    · have hb0 : 0 ≤ b := by
        by_contra hbp
        have hbn : b < 0 := not_le.mp hbp
        have := mul_pos_of_neg_of_neg h0 hbn
        omega
      have h1 : Int.tdiv a b = -(Int.tdiv (-a) b) := by rw [Int.neg_tdiv]; ring
      have h2 := Int.tdiv_nonneg (a := -a) (b := b) (by omega) hb0
      omega
  · intro hneg
    by_contra hab
    have hab2 : 0 ≤ a * b := not_lt.mp hab
    rcases le_or_lt 0 a with h0 | h0
    · rcases le_or_lt 0 b with hb0 | hb0
      · have := Int.tdiv_nonneg h0 hb0
        omega
      · rcases eq_or_lt_of_le h0 with h | h
        · rw [← h] at hneg; simp at hneg
        · have := mul_neg_of_pos_of_neg h hb0
          omega
    · rcases le_or_lt 0 b with hb0 | hb0
      · have hbp : 0 < b := lt_of_le_of_ne hb0 (Ne.symm hb)
        have := mul_neg_of_neg_of_pos h0 hbp
        omega
      · have h1 : Int.tdiv a b = Int.tdiv (-a) (-b) := by rw [Int.neg_tdiv_neg]
        have h2 := Int.tdiv_nonneg (a := -a) (b := -b) (by omega) (by omega)
        omega
  · rfl
  · rfl

/-- Witness of C19: 7 divided by -2 is -3 with remainder 1. -/
theorem division_truncates_toward_zero_witness :
    ∃ q r : Int,
      eval 2 (Val.node (Node.mathExpr "/" [Node.number 7, Node.number (-2)]))
          (initial emptyScope) = Res.ok (Val.int q) (initial emptyScope)
      ∧ eval 2 (Val.node (Node.mathExpr "%" [Node.number 7, Node.number (-2)]))
          (initial emptyScope) = Res.ok (Val.int r) (initial emptyScope)
      ∧ q * (-2) + r = 7
      ∧ r.natAbs < (-2 : Int).natAbs
      ∧ (0 ≤ (7 : Int) → 0 ≤ r) ∧ ((7 : Int) ≤ 0 → r ≤ 0)
      ∧ q.natAbs = (7 : Int).natAbs / (-2 : Int).natAbs
      ∧ (0 < q → 0 < (7 : Int) * (-2)) ∧ (q < 0 → (7 : Int) * (-2) < 0)
      ∧ eval 2 (Val.node (Node.mathExpr "/" [Node.number (-7), Node.number 2]))
          (initial emptyScope) = Res.ok (Val.int (-3)) (initial emptyScope)
      ∧ eval 2 (Val.node (Node.mathExpr "%" [Node.number (-7), Node.number 2]))
          (initial emptyScope) = Res.ok (Val.int (-1)) (initial emptyScope) :=
  division_truncates_toward_zero 0 7 (-2) (initial emptyScope)
    (by unfold inIntRange intBits; decide) (by decide) (by unfold intBits; decide)

/-- C20: after x := 1 and x := x + 1, and likewise after x := x, a read of x
exhausts every depth budget: for every budget the evaluation of the read,
and of the top-level sequence ending in it, runs out of budget and returns
no value. -/
theorem self_reference_diverges (fuel : Nat) (x : String) (e : Evaluator) :
    eval fuel (Val.node (Node.identifier x))
        (evalSetExpr x (Node.mathExpr "+" [Node.identifier x, Node.number 1])
          (evalSetExpr x (Node.number 1) e)) = Res.timeout
    ∧ eval fuel (Val.node (Node.identifier x))
        (evalSetExpr x (Node.identifier x) e) = Res.timeout
    ∧ eval fuel (Val.node (Node.file
        [Node.setExpr x (Node.number 1),
         Node.setExpr x (Node.mathExpr "+" [Node.identifier x, Node.number 1]),
         Node.identifier x])) e = Res.timeout
    ∧ eval fuel (Val.node (Node.file
        [Node.setExpr x (Node.identifier x), Node.identifier x])) e = Res.timeout := by
  have h1 : ∀ k : Nat, eval k (Val.node (Node.identifier x))
      (evalSetExpr x (Node.mathExpr "+" [Node.identifier x, Node.number 1])
        (evalSetExpr x (Node.number 1) e)) = Res.timeout :=
    read_self_plus_timeout x _ (by simp only [evalSetExpr, Scope.Lookup_Insert_same])
  have h2 : ∀ k : Nat, eval k (Val.node (Node.identifier x))
      (evalSetExpr x (Node.identifier x) e) = Res.timeout :=
    read_self_timeout x _ (by simp only [evalSetExpr, Scope.Lookup_Insert_same])
  refine ⟨h1 fuel, h2 fuel, ?_, ?_⟩
  · cases fuel with
    | zero => rfl
    | succ k =>
      cases k with
      | zero => rfl
      | succ j =>
        rw [eval_file]
        simp only [fileLoop, eval_setExpr, h1 (j + 1)]
  · cases fuel with
    | zero => rfl
    | succ k =>
      cases k with
      | zero => rfl
      | succ j =>
        rw [eval_file]
        simp only [fileLoop, eval_setExpr, h2 (j + 1)]

end Calc
